import Mathlib

/-!
Verification of the heuristic field-extraction engine of `src/server.js`
(newsletter generator scrape proxy).  Strings are modelled as `List Char`
(`Chars`); each JS helper is translated into a computable Lean function.
The regex fallbacks are embedded as dedicated scanners that implement the
specific patterns appearing in the source, with leftmost-first semantics.
-/

/-- Strings of the embedded program: JS strings as lists of characters. -/
abbrev Chars := List Char

/-- Character list of a Lean string literal (used to write constants). -/
def chs (s : String) : Chars := s.data

/-- Whitespace class used by the embedded `trim` / `\s`: the whitespace
characters that actually occur in the HTML inputs of this program. -/
def wsC (c : Char) : Bool := c = ' ' || c = '\t' || c = '\n' || c = '\r'

/-- JS `\w` word character: ASCII letter, digit or underscore. -/
def wordC (c : Char) : Bool := c.isAlpha || c.isDigit || c = '_'

/-- `pfx p s` : `s` starts with `p` (JS `String.prototype.startsWith`). -/
def pfx : Chars → Chars → Bool
  | [], _ => true
  | _ :: _, [] => false
  | a :: as, b :: bs => a = b && pfx as bs

/-- `hasSub p s` : `p` occurs as a contiguous substring of `s`
(JS `String.prototype.includes`, CSS `[attr*=...]`). -/
def hasSub (p : Chars) : Chars → Bool
  | [] => pfx p []
  | s@(_ :: rest) => pfx p s || hasSub p rest

/-- Drop trailing whitespace (helper for `jsTrim`). -/
def dropTrail (s : Chars) : Chars := (s.reverse.dropWhile wsC).reverse

/-- JS `String.prototype.trim`: strip whitespace from both ends. -/
def jsTrim (s : Chars) : Chars := dropTrail (s.dropWhile wsC)

/-- JS `.replace(/\s+/g, " ")`: collapse every maximal whitespace run to a
single space. -/
def collapseWs : Chars → Chars
  | [] => []
  | [c] => if wsC c then [' '] else [c]
  | c1 :: c2 :: rest =>
    if wsC c1 && wsC c2 then collapseWs (c2 :: rest)
    else (if wsC c1 then ' ' else c1) :: collapseWs (c2 :: rest)

/-- JS `.replace(/\s+/g, " ").trim()` as used by `findWhen`. -/
def collapseWsTrim (s : Chars) : Chars := jsTrim (collapseWs s)

/-- `absUrl` from src/server.js lines 142-150: resolve a possibly-relative
reference against the hardcoded origin `7sage.com`. -/
def absUrl (maybeRelative : Chars) : Chars :=
  if maybeRelative = [] then [] else
  let s := jsTrim maybeRelative
  if s = [] then [] else
  if pfx (chs "http://") s || pfx (chs "https://") s then s else
  if pfx (chs "//") s then chs "https:" ++ s else
  if pfx (chs "/") s then chs "https://7sage.com" ++ s else
  s

/-- A parsed HTML element as the cheerio query layer exposes it: tag name,
the attributes the engine reads (absent attribute = `none`), the element's
text content, and the `class` attributes of its ancestors (used by the
descendant selectors `[class*="UserLink"] a` and
`[class*="user"] a[href*="profile"]`). -/
structure Elem where
  tag : Chars
  href : Option Chars := none
  src : Option Chars := none
  srcset : Option Chars := none
  className : Option Chars := none
  alt : Option Chars := none
  datetime : Option Chars := none
  text : Chars := []
  ancestorClasses : List Chars := []
deriving DecidableEq

/-- A parsed document: its elements in document (pre)order. -/
abbrev Doc := List Elem

/-- Value of an optional attribute, `""` when absent (JS `attr || ""`). -/
def attrOr (a : Option Chars) : Chars := a.getD []

/-- CSS `[attr^="p"]`: attribute present and its raw value starts with `p`. -/
def attrStarts (a : Option Chars) (p : Chars) : Bool :=
  match a with
  | some v => pfx p v
  | none => false

/-- CSS `[attr*="p"]`: attribute present and contains `p` (case-sensitive). -/
def attrHas (a : Option Chars) (p : Chars) : Bool :=
  match a with
  | some v => hasSub p v
  | none => false

/-- `firstText` from src/server.js lines 152-158: for each selector in
order, take the first matching element's trimmed text; return the first
non-empty one, else `""`. -/
def firstText (doc : Doc) : List (Elem → Bool) → Chars
  | [] => []
  | sel :: rest =>
    let t := match doc.find? sel with
      | some e => jsTrim e.text
      | none => []
    if t ≠ [] then t else firstText doc rest

/-- `firstAttr` from src/server.js lines 160-166: for each selector in
order, read the named attribute of the first matching element; return the
first value that trims non-empty (trimmed), else `""`.  A missing element
or missing attribute gives a falsy `v` and the cascade continues, which is
exactly `jsTrim (attrOr (g e)) = []` here. -/
def firstAttr (doc : Doc) (g : Elem → Option Chars) : List (Elem → Bool) → Chars
  | [] => []
  | sel :: rest =>
    let v := match doc.find? sel with
      | some e => jsTrim (attrOr (g e))
      | none => []
    if v ≠ [] then v else firstAttr doc g rest

/-- `firstMatchFromLinks` from src/server.js lines 168-178: scan all `a`
elements in document order; on the first one whose trimmed href satisfies
the predicate *and* whose trimmed text is non-empty, return that text. -/
def firstMatchFromLinks (p : Chars → Bool) : Doc → Chars
  | [] => []
  | e :: rest =>
    if e.tag = chs "a" then
      if p (jsTrim (attrOr e.href)) then
        let t := jsTrim e.text
        if t ≠ [] then t else firstMatchFromLinks p rest
      else firstMatchFromLinks p rest
    else firstMatchFromLinks p rest

/-- `parseFirstUrlFromSrcset` from src/server.js lines 180-184: first
comma-delimited entry, trimmed, cut at the first whitespace. -/
def parseFirstUrlFromSrcset (srcset : Chars) : Chars :=
  if srcset = [] then [] else
  let first := jsTrim (srcset.takeWhile (fun c => c ≠ ','))
  first.takeWhile (fun c => !(wsC c))

/-- The test `/^\/discussion\/\d+\/?/.test(href)` from `findTopic`.  Since
the regex is unanchored at the right, `\d+\/?` imposes nothing beyond one
leading digit: the test holds iff `href` starts with `/discussion/`
followed by a digit. -/
def permalinkTest (h : Chars) : Bool :=
  pfx (chs "/discussion/") h &&
    match h.drop (chs "/discussion/").length with
    | c :: _ => c.isDigit
    | [] => false

/-- The filter callback of `findTopic` (src/server.js lines 188-195),
applied to the trimmed href of an `a[href^="/discussion/"]` candidate. -/
def topicKeep (h : Chars) : Bool :=
  !(h = []) &&
  !(pfx (chs "/discussion/profile/") h) &&
  !(h = chs "/discussion") && !(h = chs "/discussion/") &&
  !(permalinkTest h)

/-- The selector `a[href^="/discussion/"]` of `findTopic`. -/
def topicSel (e : Elem) : Bool :=
  e.tag = chs "a" && attrStarts e.href (chs "/discussion/")

/-- `findTopic` from src/server.js lines 186-202. -/
def findTopic (doc : Doc) : Chars × Chars :=
  match ((doc.filter topicSel).filter
      (fun e => topicKeep (jsTrim (attrOr e.href)))).head? with
  | some e => (jsTrim e.text, absUrl (attrOr e.href))
  | none => ([], absUrl [])

/-- Selector `a[href^="/discussion/profile/"]`. -/
def selUser1 (e : Elem) : Bool :=
  e.tag = chs "a" && attrStarts e.href (chs "/discussion/profile/")

/-- Selector `a[href*="/discussion/profile/"]`. -/
def selUser2 (e : Elem) : Bool :=
  e.tag = chs "a" && attrHas e.href (chs "/discussion/profile/")

/-- Selector `[class*="UserLink"] a`. -/
def selUser3 (e : Elem) : Bool :=
  e.tag = chs "a" && e.ancestorClasses.any (fun c => hasSub (chs "UserLink") c)

/-- Selector `[class*="user"] a[href*="profile"]`. -/
def selUser4 (e : Elem) : Bool :=
  e.tag = chs "a" && attrHas e.href (chs "profile") &&
    e.ancestorClasses.any (fun c => hasSub (chs "user") c)

/-- `findUsername` from src/server.js lines 204-214 (the two profile-link
steps present in this revision). -/
def findUsername (doc : Doc) : Chars :=
  let u := firstText doc [selUser1, selUser2, selUser3, selUser4]
  let u := if u = [] then
      firstMatchFromLinks (fun h => pfx (chs "/discussion/profile/") h) doc
    else u
  jsTrim u

/-- Case-insensitive literal matcher: `matchCI pat s = some (m, r)` iff
`s = m ++ r` and `m` equals `pat` up to ASCII case (returns the input's
own characters, as a JS regex match does). -/
def matchCI : Chars → Chars → Option (Chars × Chars)
  | [], s => some ([], s)
  | _ :: _, [] => none
  | p :: ps, c :: cs =>
    if c.toLower = p.toLower then
      (matchCI ps cs).map (fun mr => (c :: mr.1, mr.2))
    else none

/-- Word boundary `\b` landing after a match: next char absent or non-word. -/
def boundaryAfter (r : Chars) : Bool :=
  match r with
  | [] => true
  | c :: _ => !wordC c

/-- Matcher for the regex tail `\s+\w+\s+ago\b` at the start of `s`
(the `\s`/`\w` classes are disjoint, so the greedy JS match here is
deterministic: each quantifier takes its maximal run). -/
def agoTail (s : Chars) : Option Chars :=
  let w1 := s.takeWhile wsC
  if w1 = [] then none else
  let s1 := s.drop w1.length
  let u := s1.takeWhile wordC
  if u = [] then none else
  let s2 := s1.drop u.length
  let w2 := s2.takeWhile wsC
  if w2 = [] then none else
  let s3 := s2.drop w2.length
  match matchCI (chs "ago") s3 with
  | some (m, r) => if boundaryAfter r then some (w1 ++ u ++ w2 ++ m) else none
  | none => none

/-- Attempt `/\b\d+\s+\w+\s+ago\b/i` at the current position; `prevW` says
whether the previous character is a word character (for `\b`). -/
def tryBareAgo (prevW : Bool) (s : Chars) : Option Chars :=
  if prevW then none else
  let ds := s.takeWhile Char.isDigit
  if ds = [] then none else
  match agoTail (s.drop ds.length) with
  | some t => some (ds ++ t)
  | none => none

/-- Attempt `/\bEdited\s+\d+\s+\w+\s+ago\b/i` at the current position. -/
def tryEdited (prevW : Bool) (s : Chars) : Option Chars :=
  if prevW then none else
  match matchCI (chs "edited") s with
  | none => none
  | some (me, r1) =>
    let w0 := r1.takeWhile wsC
    if w0 = [] then none else
    let s1 := r1.drop w0.length
    let ds := s1.takeWhile Char.isDigit
    if ds = [] then none else
    match agoTail (s1.drop ds.length) with
    | some t => some (me ++ w0 ++ ds ++ t)
    | none => none

/-- Leftmost-first scan driver for the two `ago` regexes: try the pattern
at every position from the left, tracking the word-character status of the
previous character for `\b`. -/
def scanWith (tryf : Bool → Chars → Option Chars) (prevW : Bool) :
    Chars → Option Chars
  | [] => none
  | s@(c :: rest) =>
    match tryf prevW s with
    | some m => some m
    | none => scanWith tryf (wordC c) rest

/-- `html.match(/\bEdited\s+\d+\s+\w+\s+ago\b/i)` (`m[0]` when matched). -/
def editedScan (html : Chars) : Option Chars := scanWith tryEdited false html

/-- `html.match(/\b\d+\s+\w+\s+ago\b/i)` (`m[0]` when matched). -/
def agoScan (html : Chars) : Option Chars := scanWith tryBareAgo false html

/-- Character class `[^"' )]` of the imagekit regex. -/
def ikBody (c : Char) : Bool :=
  !(c = '"' || c = Char.ofNat 39 || c = ' ' || c = ')')

/-- Continuation of the imagekit regex after `http` and the optional `s`
(`m1`, `m2`): match the literal `://ik.imagekit.io/` and then the greedy
non-empty `[^"' )]+` body. -/
def ikAfterScheme (m1 m2 r2 : Chars) : Option Chars :=
  match matchCI (chs "://ik.imagekit.io/") r2 with
  | some (m3, r3) =>
    let body := r3.takeWhile ikBody
    if body = [] then none else some (m1 ++ m2 ++ m3 ++ body)
  | none => none

/-- Attempt `/https?:\/\/ik\.imagekit\.io\/[^"' )]+/i` at this position
(greedy `s?`: try consuming an `s` first, then without). -/
def tryIk (s : Chars) : Option Chars :=
  match matchCI (chs "http") s with
  | none => none
  | some (m1, r1) =>
    match r1 with
    | c :: cs =>
      if c.toLower = 's' then
        match ikAfterScheme m1 [c] cs with
        | some m => some m
        | none => ikAfterScheme m1 [] r1
      else ikAfterScheme m1 [] r1
    | [] => ikAfterScheme m1 [] r1

/-- Leftmost scan for the imagekit URL regex (no `\b` in this pattern). -/
def ikScan : Chars → Option Chars
  | [] => none
  | s@(_ :: rest) =>
    match tryIk s with
    | some m => some m
    | none => ikScan rest

/-- Selector `img[class*="Avatar"][src]`. -/
def selAv1 (e : Elem) : Bool :=
  e.tag = chs "img" && attrHas e.className (chs "Avatar") && e.src.isSome

/-- Selector `img[class*="avatar"][src]`. -/
def selAv2 (e : Elem) : Bool :=
  e.tag = chs "img" && attrHas e.className (chs "avatar") && e.src.isSome

/-- Selector `img[alt*="Avatar"][src]`. -/
def selAv3 (e : Elem) : Bool :=
  e.tag = chs "img" && attrHas e.alt (chs "Avatar") && e.src.isSome

/-- Selector `img[alt*="avatar"][src]`. -/
def selAv4 (e : Elem) : Bool :=
  e.tag = chs "img" && attrHas e.alt (chs "avatar") && e.src.isSome

/-- Selector `img[src*="imagekit.io"]`. -/
def selAvCdn (e : Elem) : Bool :=
  e.tag = chs "img" && attrHas e.src (chs "imagekit.io")

/-- Selector `img[class*="Avatar"][srcset]`. -/
def selAvSet1 (e : Elem) : Bool :=
  e.tag = chs "img" && attrHas e.className (chs "Avatar") && e.srcset.isSome

/-- Selector `img[class*="avatar"][srcset]`. -/
def selAvSet2 (e : Elem) : Bool :=
  e.tag = chs "img" && attrHas e.className (chs "avatar") && e.srcset.isSome

/-- Selector `img[alt*="Avatar"][srcset]`. -/
def selAvSet3 (e : Elem) : Bool :=
  e.tag = chs "img" && attrHas e.alt (chs "Avatar") && e.srcset.isSome

/-- Selector `img[alt*="avatar"][srcset]`. -/
def selAvSet4 (e : Elem) : Bool :=
  e.tag = chs "img" && attrHas e.alt (chs "avatar") && e.srcset.isSome

/-- Selector `img[srcset*="imagekit.io"]`. -/
def selAvSet5 (e : Elem) : Bool :=
  e.tag = chs "img" && attrHas e.srcset (chs "imagekit.io")

/-- The avatar-hint `src` selector cascade of `findAvatar`. -/
def avatarSrcSels : List (Elem → Bool) := [selAv1, selAv2, selAv3, selAv4]

/-- The srcset selector cascade of `findAvatar`. -/
def avatarSetSels : List (Elem → Bool) :=
  [selAvSet1, selAvSet2, selAvSet3, selAvSet4, selAvSet5]

/-- `findAvatar` from src/server.js lines 216-243. -/
def findAvatar (doc : Doc) (html : Chars) : Chars :=
  let s1 := firstAttr doc (fun e => e.src) avatarSrcSels
  if s1 ≠ [] then absUrl s1 else
  let s2 := firstAttr doc (fun e => e.src) [selAvCdn]
  if s2 ≠ [] then absUrl s2 else
  let ss := firstAttr doc (fun e => e.srcset) avatarSetSels
  let u := parseFirstUrlFromSrcset ss
  if u ≠ [] then absUrl u else
  match ikScan html with
  | some m => m
  | none => []

/-- Selector `time[datetime]`. -/
def selTimeDt (e : Elem) : Bool := e.tag = chs "time" && e.datetime.isSome

/-- Selector `time`. -/
def selTime (e : Elem) : Bool := e.tag = chs "time"

/-- `findWhen` from src/server.js lines 245-258. -/
def findWhen (doc : Doc) (html : Chars) : Chars :=
  let w := firstAttr doc (fun e => e.datetime) [selTimeDt]
  let w := if w = [] then firstText doc [selTime] else w
  if w ≠ [] then collapseWsTrim w else
  match editedScan html with
  | some m => collapseWsTrim m
  | none =>
    match agoScan html with
    | some m => collapseWsTrim m
    | none => []

/-- The record assembled by the `/scrape-discussion` handler
(src/server.js lines 312-323); field names follow the source. -/
structure DiscussionRecord where
  url : Chars
  title : Chars
  topic : Chars
  topicUrl : Chars
  username : Chars
  avatar : Chars
  whenText : Chars
deriving DecidableEq

/-- The extraction operation of the `/scrape-discussion` handler
(src/server.js lines 285-323) applied to a fetched page: run the four
resolvers on the parsed document (and the raw html for the regex
fallbacks) and assemble the record, with `title` forced blank.  The
`whenText` field carries the handler's `when` value (`when` names the
final regex-match result in the source). -/
def extract (doc : Doc) (html : Chars) (url : Chars) : DiscussionRecord :=
  { url := url
    title := []
    topic := (findTopic doc).1
    topicUrl := (findTopic doc).2
    username := findUsername doc
    avatar := findAvatar doc html
    whenText := findWhen doc html }

/-- Modelled from the spec: the embedded structured-data JSON block
(spec §4.4 step 4, §4.6 step 5, §6).  Parsing is the external capability
that "returns an optional value rather than throwing"; absence of data
and parse failure are both `none`, so a present record carries the three
fields the resolvers consult (missing JSON keys are empty strings). -/
structure StructuredData where
  authorName : Chars := []
  dateModified : Chars := []
  datePublished : Chars := []
deriving DecidableEq

/-- Modelled from the spec (§4.4 step 3, absent from the src/server.js
revision): text of the first element whose class name hints "author" or
"byline", trimmed. -/
def authorBylineText (doc : Doc) : Chars :=
  match doc.find? (fun e =>
      match e.className with
      | some c =>
        hasSub (chs "author") (c.map Char.toLower) ||
          hasSub (chs "byline") (c.map Char.toLower)
      | none => false) with
  | some e => jsTrim e.text
  | none => []

/-- Modelled from the spec (§4.4 step 4, absent from the src/server.js
revision): the `author.name` field of the structured-data block, trimmed;
`""` when the block is absent or unparseable. -/
def sdAuthorName (sd : Option StructuredData) : Chars :=
  match sd with
  | some d => jsTrim d.authorName
  | none => []

/-- Modelled from the spec (§4.4): the full four-step Username Resolver —
steps 1-2 are the source's `findUsername`, steps 3-4 are the
spec-modelled fallbacks; first non-empty trimmed result wins. -/
def findUsernameFull (doc : Doc) (sd : Option StructuredData) : Chars :=
  let u := findUsername doc
  if u ≠ [] then u else
  let a := authorBylineText doc
  if a ≠ [] then a else
  sdAuthorName sd

/-- Modelled from the spec (§4.6 step 5, absent from the src/server.js
revision): structured-data date, `dateModified` preferred over
`datePublished`, whitespace-normalized; `""` on absent/unparseable data. -/
def sdWhen (sd : Option StructuredData) : Chars :=
  match sd with
  | some d =>
    if jsTrim d.dateModified ≠ [] then collapseWsTrim d.dateModified
    else collapseWsTrim d.datePublished
  | none => []

/-- Modelled from the spec (§4.6): the full five-step When Resolver —
steps 1-4 are the source's `findWhen`, step 5 the spec-modelled
structured-data date. -/
def findWhenFull (doc : Doc) (html : Chars) (sd : Option StructuredData) : Chars :=
  let w := findWhen doc html
  if w ≠ [] then w else sdWhen sd

/-- Split on a separator character (JS `String.prototype.split` with a
single-character separator). -/
def splitOnC (sep : Char) : Chars → List Chars
  | [] => [[]]
  | c :: rest =>
    if c = sep then [] :: splitOnC sep rest
    else
      match splitOnC sep rest with
      | h :: t => (c :: h) :: t
      | [] => [[c]]

/-- Join with a separator character (inverse of `splitOnC`). -/
def joinC (sep : Char) : List Chars → Chars
  | [] => []
  | [p] => p
  | p :: ps => p ++ sep :: joinC sep ps

/-- Key of a query parameter: the part before the first `=`. -/
def queryKey (p : Chars) : Chars := p.takeWhile (fun c => c ≠ '=')

/-- Modelled from the spec (§4.7): the known size-parameterized image
service — the avatar host this system recognizes (gravatar, cf. the
handler's debug signal for it). -/
def sizeHost (h : Chars) : Bool := hasSub (chs "gravatar.com") h

/-- Host of an absolute http(s) URL prefix: the part after the scheme up
to the first `/` or `?`. -/
def hostOf (u : Chars) : Chars :=
  let k := if pfx (chs "https://") u then 8 else 7
  (u.drop k).takeWhile (fun c => !(c = '/' || c = '?'))

/-- The part of `v` before its first `?`. -/
def baseOf (v : Chars) : Chars := v.takeWhile (fun c => !(c = '?'))

/-- The query parameters of `v` (split at the first `?`, then on `&`). -/
def queryParams (v : Chars) : List Chars :=
  splitOnC '&' (v.drop ((baseOf v).length + 1))

/-- Modelled from the spec: the Avatar Post-Processor `upscale` (§4.7),
absent from the src/server.js revision.  A syntactically invalid URL (no
http(s) scheme) or one whose host is not the size-parameterized service
is returned unchanged; otherwise the size query parameter `s` is
overwritten (not appended) with the fixed larger value 192. -/
def upscale (u : Chars) : Chars :=
  if !(pfx (chs "http://") u || pfx (chs "https://") u) then u else
  let base := baseOf u
  if !(sizeHost (hostOf base)) then u else
  let kept := (splitOnC '&' (u.drop (base.length + 1))).filter
    (fun p => !(p = []) && !(queryKey p = chs "s"))
  base ++ '?' :: joinC '&' (kept ++ [chs "s=192"])

/-- Written from the words of claim C2: a candidate reference survives the
Topic Resolver iff it begins with the discussion path prefix and is not
profile-prefixed, not the bare root (with or without trailing slash), and
its next path segment is not purely numeric. -/
def specTopicSurvives (h : Chars) : Bool :=
  pfx (chs "/discussion/") h &&
  !(pfx (chs "/discussion/profile/") h) &&
  !(h = chs "/discussion") && !(h = chs "/discussion/") &&
  !(let seg := (h.drop (chs "/discussion/").length).takeWhile (fun c => c ≠ '/')
    seg ≠ [] && seg.all Char.isDigit)

/-- Written from the words of the amended claim C2: clause (c) rejects a
candidate whose path segment right after the discussion prefix *begins
with* a digit (the unanchored source regex requires no more). -/
def amendedSegStartsDigit (h : Chars) : Bool :=
  match (h.drop (chs "/discussion/").length).takeWhile (fun c => c ≠ '/') with
  | c :: _ => c.isDigit
  | [] => false

/-- Written from the words of the amended claim C2: the whole amended
acceptance predicate over an element (selector plus filter, the filter
clauses applied to the trimmed reference). -/
def amendedTopicAccept (e : Elem) : Bool :=
  e.tag = chs "a" && attrStarts e.href (chs "/discussion/") &&
  (!(pfx (chs "/discussion/profile/") (jsTrim (attrOr e.href))) &&
   !(jsTrim (attrOr e.href) = chs "/discussion") &&
   !(jsTrim (attrOr e.href) = chs "/discussion/") &&
   !(amendedSegStartsDigit (jsTrim (attrOr e.href))))

/-- Written from the words of the amended claim C2: the first surviving
link in document order supplies the topic (trimmed text) and topicUrl
(normalized reference); both empty when no link survives. -/
def amendedTopicResult (doc : Doc) : Chars × Chars :=
  match doc.find? amendedTopicAccept with
  | some e => (jsTrim e.text, absUrl (attrOr e.href))
  | none => ([], [])

/-- Written from the words of claim C4: an image whose class or alt
attribute hints "avatar" case-insensitively. -/
def avatarHintedCI (e : Elem) : Bool :=
  e.tag = chs "img" &&
    (hasSub (chs "avatar") ((attrOr e.className).map Char.toLower) ||
     hasSub (chs "avatar") ((attrOr e.alt).map Char.toLower))

/-- The avatar-hint predicate the source selectors actually implement:
class or alt contains the substring `Avatar` or `avatar`. -/
def avatarHintedCS (e : Elem) : Bool :=
  e.tag = chs "img" &&
    (attrHas e.className (chs "Avatar") || attrHas e.className (chs "avatar") ||
     attrHas e.alt (chs "Avatar") || attrHas e.alt (chs "avatar"))

/-- An absolute URL in the sense of the record invariants: it carries an
explicit http(s) scheme (scheme compared case-insensitively). -/
def isAbsCI (s : Chars) : Bool :=
  pfx (chs "http://") (s.map Char.toLower) ||
    pfx (chs "https://") (s.map Char.toLower)

/-- A reference form that the URL Normalizer resolves to an absolute URL:
empty, root-relative, protocol-relative, or already absolute. -/
def goodRef (s : Chars) : Bool :=
  s = [] || pfx (chs "/") s || pfx (chs "http://") s || pfx (chs "https://") s

/-- A whitespace-normalized string: every whitespace character is a plain
space, no two adjacent spaces, and no leading or trailing space. -/
def isNormalized (s : Chars) : Bool :=
  s.all (fun c => !(wsC c) || c = ' ') &&
  !(hasSub (chs "  ") s) &&
  (match s with | [] => true | c :: _ => !(c = ' ')) &&
  (match s.getLast? with | some c => !(c = ' ') | none => true)

theorem pfx_cons_nil (a : Char) (as : Chars) : pfx (a :: as) [] = false := rfl

theorem pfx_cons_cons (a : Char) (as : Chars) (b : Char) (bs : Chars) :
    pfx (a :: as) (b :: bs) = (decide (a = b) && pfx as bs) := rfl

theorem hasSub_nil (p : Chars) : hasSub p [] = pfx p [] := rfl

theorem hasSub_cons (p : Chars) (c : Char) (rest : Chars) :
    hasSub p (c :: rest) = (pfx p (c :: rest) || hasSub p rest) := rfl

/-- The first character of `p` (when any) is not whitespace. -/
def headNotWs (p : Chars) : Bool :=
  match p with
  | c :: _ => !wsC c
  | [] => true

/-- The last character of `p` (when any) is not whitespace. -/
def lastNotWs (p : Chars) : Bool :=
  match p.getLast? with
  | some c => !wsC c
  | none => true

/-! ### Concrete documents and inputs used by the claim theorems -/

/-- The document of the end-to-end scenario (claim C9). -/
def doc9 : Doc :=
  [ { tag := chs "a", href := some (chs "/discussion/profile/jdoe"),
      text := chs "J. Doe" },
    { tag := chs "a", href := some (chs "/discussion/categories/general"),
      text := chs "General" },
    { tag := chs "a", href := some (chs "/discussion/54829/some-post"),
      text := chs "Some post" },
    { tag := chs "img", className := some (chs "avatar"),
      src := some (chs "/images/u1.jpg") },
    { tag := chs "time", datetime := some (chs "2024-01-05T10:00:00Z"),
      text := chs "Jan 5" } ]

/-- A document whose only discussion link has a digit-leading but not
purely numeric next segment (claim C2). -/
def c2Doc : Doc :=
  [ { tag := chs "a", href := some (chs "/discussion/54829abc"),
      text := chs "X" } ]

/-- A document with an author-hinting class and no profile link
(claim C3). -/
def c3Doc : Doc :=
  [ { tag := chs "div", className := some (chs "post-byline"),
      text := chs " Jane Byline " } ]

/-- A document with both a profile link and an author-classed element
(claim C3: steps 1-2 win over step 3). -/
def c3Doc2 : Doc :=
  [ { tag := chs "div", className := some (chs "author-meta"),
      text := chs "Jane Byline" },
    { tag := chs "a", href := some (chs "/discussion/profile/pu"),
      text := chs "ProfileUser" } ]

/-- A structured-data block carrying an author name (claim C3). -/
def c3Sd : StructuredData := { authorName := chs " Author Name " }

/-- The image whose class hints avatar only case-insensitively
(claim C4). -/
def c4ImgUpper : Elem :=
  { tag := chs "img", className := some (chs "AVATAR"),
    src := some (chs "/a.png") }

/-- Claim C4 counterexample document: an upper-case `AVATAR` class and a
CDN-hosted image. -/
def c4DocA : Doc :=
  [ c4ImgUpper,
    { tag := chs "img", src := some (chs "https://x.imagekit.io/y.png") } ]

/-- The avatar-hinted image with a usable src that the cascade misses
(claim C4, second counterexample configuration). -/
def c4ImgGood : Elem :=
  { tag := chs "img", className := some (chs "avatar"),
    src := some (chs "/b.png") }

/-- Claim C4: a blank-src avatar-classed image shadows the selector, so
the CDN image wins although an avatar-hinted image with a real src
exists. -/
def c4DocB : Doc :=
  [ { tag := chs "img", className := some (chs "avatar"), src := some [] },
    c4ImgGood,
    { tag := chs "img", src := some (chs "https://ik.imagekit.io/c.png") } ]

/-- Claim C4 witness document. -/
def c4DocW : Doc :=
  [ { tag := chs "img", className := some (chs "user-avatar"),
      src := some (chs "/me.png") },
    { tag := chs "img", src := some (chs "https://ik.imagekit.io/other.png") } ]

/-- Claim C8 counterexample: an avatar src in opaque relative form. -/
def c8Doc : Doc :=
  [ { tag := chs "img", className := some (chs "avatar"),
      src := some (chs "foo.png") } ]

/-- Claim C10: a document whose only image-CDN URL occurrence is raw text
inside a script element, on the `cdn.` subdomain. -/
def c10Doc : Doc :=
  [ { tag := chs "script",
      text := chs "var a = \"https://cdn.imagekit.io/av.png\";" } ]

/-- Claim C10: the raw html of `c10Doc`. -/
def c10Html : Chars :=
  chs "<script>var a = \"https://cdn.imagekit.io/av.png\";</script>"

/-- Claim C5: a time element whose text carries ragged whitespace. -/
def c5TimeElem : Elem := { tag := chs "time", text := chs "3\n  days   ago" }

/-- Claim C5: a time element carrying a machine-readable datetime. -/
def c5DtElem : Elem :=
  { tag := chs "time", datetime := some (chs "2024-01-05T10:00:00Z"),
    text := chs "Jan 5" }

/-- Claim C5: a structured-data block with only a published date. -/
def c5Sd : StructuredData := { datePublished := chs " 2024-02-03 10:00 " }

/-! ### Lemmas about the string primitives -/

theorem pfx_iff : ∀ (p s : Chars), pfx p s = true ↔ ∃ t, s = p ++ t
  | [], s => by simp [pfx]
  | _ :: _, [] => by simp [pfx]
  | a :: as, b :: bs => by
    simp only [pfx, Bool.and_eq_true, decide_eq_true_eq, List.cons_append,
      List.cons.injEq, pfx_iff as bs]
    constructor
    · rintro ⟨rfl, t, rfl⟩
      exact ⟨t, rfl, rfl⟩
    · rintro ⟨t, rfl, rfl⟩
      exact ⟨rfl, t, rfl⟩

theorem pfx_append_self (p t : Chars) : pfx p (p ++ t) = true :=
  (pfx_iff p (p ++ t)).2 ⟨t, rfl⟩

theorem pfx_append_right {p a : Chars} (b : Chars) (h : pfx p a = true) :
    pfx p (a ++ b) = true := by
  obtain ⟨t, rfl⟩ := (pfx_iff p a).1 h
  rw [List.append_assoc]
  exact pfx_append_self p (t ++ b)

theorem ne_nil_of_pfx {p s : Chars} (hp : p ≠ []) (h : pfx p s = true) :
    s ≠ [] := by
  obtain ⟨t, rfl⟩ := (pfx_iff p s).1 h
  cases p with
  | nil => exact absurd rfl hp
  | cons a as => simp

theorem hasSub_iff : ∀ (p s : Chars), hasSub p s = true ↔ ∃ a b, s = a ++ p ++ b
  | p, [] => by
    cases p with
    | nil => simp [hasSub, pfx]
    | cons c cs => simp [hasSub, pfx]
  | p, c :: rest => by
    simp only [hasSub, Bool.or_eq_true, pfx_iff, hasSub_iff p rest]
    constructor
    · rintro (⟨t, ht⟩ | ⟨a, b, hab⟩)
      · exact ⟨[], t, by simpa using ht⟩
      · exact ⟨c :: a, b, by simp [hab]⟩
    · rintro ⟨a, b, hab⟩
      cases a with
      | nil =>
        left
        exact ⟨b, by simpa using hab⟩
      | cons a0 as =>
        right
        simp only [List.cons_append, List.cons.injEq] at hab
        exact ⟨as, b, hab.2⟩

theorem hasSub_of_append {p a b m : Chars} (h : hasSub p m = true) :
    hasSub p (a ++ m ++ b) = true := by
  obtain ⟨x, y, rfl⟩ := (hasSub_iff p m).1 h
  exact (hasSub_iff p _).2 ⟨a ++ x, y ++ b, by simp⟩

theorem hasSub_map {p m : Chars} (f : Char → Char) (h : hasSub p m = true) :
    hasSub (p.map f) (m.map f) = true := by
  obtain ⟨x, y, rfl⟩ := (hasSub_iff p m).1 h
  exact (hasSub_iff _ _).2 ⟨x.map f, y.map f, by simp⟩

theorem dropTrail_append_ws {a b : Chars} (hb : ∀ c ∈ b, wsC c = true) :
    dropTrail (a ++ b) = dropTrail a := by
  unfold dropTrail
  rw [List.reverse_append, List.dropWhile_append_of_pos (by simpa using hb)]

theorem dropTrail_append_ne {a b : Chars} (hb : dropTrail b ≠ []) :
    dropTrail (a ++ b) = a ++ dropTrail b := by
  have hb2 : (b.reverse.dropWhile wsC).isEmpty = false := by
    rw [List.isEmpty_eq_false]
    intro h
    exact hb (by simp [dropTrail, h])
  unfold dropTrail
  rw [List.reverse_append, List.dropWhile_append, hb2]
  simp only [Bool.false_eq_true, if_false, List.reverse_append,
    List.reverse_reverse]

theorem dropTrail_eq_self {s : Chars}
    (h : ∀ c, s.getLast? = some c → wsC c = false) : dropTrail s = s := by
  unfold dropTrail
  cases hs : s.reverse with
  | nil =>
    simp_all
  | cons c t =>
    have hc : s.getLast? = some c := by
      rw [← List.head?_reverse, hs]
      rfl
    rw [List.dropWhile_cons, if_neg (by simp [h c hc]), ← hs,
      List.reverse_reverse]

theorem dropTrail_sfx (s : Chars) :
    ∃ b, s = dropTrail s ++ b ∧ ∀ c ∈ b, wsC c = true := by
  refine ⟨(s.reverse.takeWhile wsC).reverse, ?_, ?_⟩
  · show s = (s.reverse.dropWhile wsC).reverse ++ (s.reverse.takeWhile wsC).reverse
    have h2 := congrArg List.reverse
      (List.takeWhile_append_dropWhile (p := wsC) (l := s.reverse))
    rw [List.reverse_append, List.reverse_reverse] at h2
    exact h2.symm
  · intro c hc
    rw [List.mem_reverse] at hc
    exact List.mem_takeWhile_imp hc

theorem jsTrim_decomp (s : Chars) :
    ∃ a b, s = a ++ jsTrim s ++ b ∧ (∀ c ∈ a, wsC c = true) ∧
      ∀ c ∈ b, wsC c = true := by
  obtain ⟨b, hb, hbw⟩ := dropTrail_sfx (s.dropWhile wsC)
  refine ⟨s.takeWhile wsC, b, ?_, fun c hc => List.mem_takeWhile_imp hc, hbw⟩
  conv_lhs => rw [← List.takeWhile_append_dropWhile (p := wsC) (l := s), hb]
  simp [jsTrim]

theorem mem_of_mem_jsTrim {s : Chars} {c : Char} (h : c ∈ jsTrim s) : c ∈ s := by
  obtain ⟨a, b, hs, -, -⟩ := jsTrim_decomp s
  rw [hs]
  simp [h]

theorem hasSub_of_hasSub_jsTrim {p s : Chars} (h : hasSub p (jsTrim s) = true) :
    hasSub p s = true := by
  obtain ⟨a, b, hs, -, -⟩ := jsTrim_decomp s
  rw [hs]
  exact hasSub_of_append h

theorem jsTrim_head {s : Chars} {c : Char} {t : Chars}
    (h : jsTrim s = c :: t) : wsC c = false := by
  have h1 := List.head?_dropWhile_not wsC (s.dropWhile wsC).reverse
  obtain ⟨b, hb, -⟩ := dropTrail_sfx (s.dropWhile wsC)
  have hpfx : ∃ u, s.dropWhile wsC = c :: u := ⟨t ++ b, by rw [hb, jsTrim] at *; simp [h]⟩
  obtain ⟨u, hu⟩ := hpfx
  have h2 := List.head?_dropWhile_not wsC s
  rw [hu] at h2
  simpa using h2

theorem jsTrim_last {s : Chars} {c : Char}
    (h : (jsTrim s).getLast? = some c) : wsC c = false := by
  unfold jsTrim dropTrail at h
  rw [List.getLast?_reverse] at h
  have h2 := List.head?_dropWhile_not wsC (s.dropWhile wsC).reverse
  rw [h] at h2
  simpa using h2

theorem dropWhile_eq_self_of_head {p : Char → Bool} {s : Chars}
    (h : ∀ c t, s = c :: t → p c = false) : s.dropWhile p = s := by
  cases s with
  | nil => rfl
  | cons c t => rw [List.dropWhile_cons, if_neg (by simp [h c t rfl])]

theorem jsTrim_idem (s : Chars) : jsTrim (jsTrim s) = jsTrim s := by
  show dropTrail ((jsTrim s).dropWhile wsC) = jsTrim s
  rw [dropWhile_eq_self_of_head (fun c t ht => jsTrim_head (s := s) ht)]
  exact dropTrail_eq_self fun c hc => jsTrim_last (s := s) hc

theorem jsTrim_of_forall {s : Chars} (h : ∀ c ∈ s, wsC c = false) :
    jsTrim s = s := by
  show dropTrail (s.dropWhile wsC) = s
  rw [dropWhile_eq_self_of_head
    (fun c t ht => h c (by rw [ht]; exact List.mem_cons_self c t))]
  exact dropTrail_eq_self fun c hc => h c (List.mem_of_getLast?_eq_some hc)


theorem pfx_jsTrim {p s : Chars} (hp : pfx p s = true)
    (hh : headNotWs p = true) (hl : lastNotWs p = true) :
    pfx p (jsTrim s) = true := by
  obtain ⟨t, rfl⟩ := (pfx_iff p s).1 hp
  cases p with
  | nil => simp [pfx]
  | cons c0 p0 =>
    have hh2 : wsC c0 = false := by simpa [headNotWs] using hh
    have hl2 : ∀ c, (c0 :: p0).getLast? = some c → wsC c = false := by
      intro c hc
      unfold lastNotWs at hl
      rw [hc] at hl
      simpa using hl
    show pfx (c0 :: p0) (dropTrail (((c0 :: p0) ++ t).dropWhile wsC)) = true
    rw [dropWhile_eq_self_of_head (p := wsC)
      (fun c u hc => by
        simp only [List.cons_append, List.cons.injEq] at hc
        exact hc.1 ▸ hh2)]
    by_cases hdt : dropTrail t = []
    · obtain ⟨b, hb, hbw⟩ := dropTrail_sfx t
      rw [hdt, List.nil_append] at hb
      rw [hb, dropTrail_append_ws hbw, dropTrail_eq_self hl2]
      simpa using pfx_append_self (c0 :: p0) []
    · rw [dropTrail_append_ne hdt]
      exact pfx_append_self _ _

/-! ### Whitespace normalization -/


theorem collapseWs_mem {s : Chars} {c : Char} (h : c ∈ collapseWs s)
    (hw : wsC c = true) : c = ' ' := by
  induction s using collapseWs.induct with
  | case1 => simp [collapseWs] at h
  | case2 c0 h0 =>
    rw [collapseWs, if_pos h0] at h
    simpa using h
  | case3 c0 h0 =>
    rw [collapseWs, if_neg h0] at h
    simp only [List.mem_singleton] at h
    subst h
    exact absurd hw h0
  | case4 c1 c2 rest hws ih =>
    rw [collapseWs, if_pos hws] at h
    exact ih h
  | case5 c1 c2 rest hws ih =>
    rw [collapseWs, if_neg hws] at h
    rcases List.mem_cons.1 h with h1 | h1
    · subst h1
      by_cases h2 : wsC c1 = true
      · simp [h2]
      · rw [if_neg h2] at hw
        exact absurd hw h2
    · exact ih h1

theorem collapseWs_head_nonws {c : Char} (rest : Chars)
    (h : wsC c = false) : ∃ t, collapseWs (c :: rest) = c :: t := by
  cases rest with
  | nil => exact ⟨[], by simp [collapseWs, h]⟩
  | cons c2 r2 =>
    refine ⟨collapseWs (c2 :: r2), ?_⟩
    rw [collapseWs, if_neg (by simp [h]), if_neg (by simp [h])]

theorem collapseWs_noDbl (s : Chars) :
    hasSub (chs "  ") (collapseWs s) = false := by
  have hchs : chs "  " = ' ' :: ' ' :: [] := rfl
  induction s using collapseWs.induct with
  | case1 => decide
  | case2 c0 h0 =>
    rw [collapseWs, if_pos h0]
    decide
  | case3 c0 h0 =>
    rw [collapseWs, if_neg h0, hchs, hasSub_cons, hasSub_nil,
      pfx_cons_cons, pfx_cons_nil, pfx_cons_nil]
    simp
  | case4 c1 c2 rest hws ih =>
    rw [collapseWs, if_pos hws]
    exact ih
  | case5 c1 c2 rest hws ih =>
    rw [collapseWs, if_neg hws]
    by_cases h1 : wsC c1 = true
    · have h2 : wsC c2 = false := by
        cases h2 : wsC c2
        · rfl
        · exact absurd (by simp [h1, h2]) hws
      obtain ⟨t, ht⟩ := collapseWs_head_nonws (c := c2) rest h2
      rw [if_pos h1, hasSub_cons, Bool.or_eq_false_iff]
      refine ⟨?_, ih⟩
      rw [ht, hchs, pfx_cons_cons, pfx_cons_cons]
      have hc2 : ¬((' ' : Char) = c2) := by
        intro hc
        rw [← hc] at h2
        exact absurd h2 (by decide)
      simp [hc2]
    · simp only [Bool.not_eq_true] at h1
      rw [if_neg (by simp [h1]), hasSub_cons, Bool.or_eq_false_iff]
      refine ⟨?_, ih⟩
      rw [hchs, pfx_cons_cons]
      have hc1 : ¬((' ' : Char) = c1) := by
        intro hc
        rw [← hc] at h1
        exact absurd h1 (by decide)
      simp [hc1]

theorem isNormalized_collapseWsTrim (s : Chars) :
    isNormalized (collapseWsTrim s) = true := by
  unfold isNormalized collapseWsTrim
  simp only [Bool.and_eq_true]
  refine ⟨⟨⟨?_, ?_⟩, ?_⟩, ?_⟩
  · rw [List.all_eq_true]
    intro c hc
    by_cases hw : wsC c = true
    · have := collapseWs_mem (mem_of_mem_jsTrim hc) hw
      simp [this]
    · simp only [Bool.not_eq_true] at hw
      simp [hw]
  · cases hsub : hasSub (chs "  ") (jsTrim (collapseWs s))
    · rfl
    · exact absurd (hasSub_of_hasSub_jsTrim hsub)
        (by simp [collapseWs_noDbl s])
  · cases hh : jsTrim (collapseWs s) with
    | nil => rfl
    | cons c t =>
      have hws := jsTrim_head hh
      simp only [Bool.not_eq_true']
      rw [decide_eq_false_iff_not]
      intro hc
      rw [hc] at hws
      exact absurd hws (by decide)
  · cases hl : (jsTrim (collapseWs s)).getLast? with
    | none => rfl
    | some c =>
      have hws := jsTrim_last hl
      simp only [Bool.not_eq_true']
      rw [decide_eq_false_iff_not]
      intro hc
      rw [hc] at hws
      exact absurd hws (by decide)

/-! ### Decompositions of the regex scanners -/

theorem drop_takeWhile (p : Char → Bool) (l : Chars) :
    l.drop (l.takeWhile p).length = l.dropWhile p := by
  induction l with
  | nil => rfl
  | cons c t ih =>
    rw [List.takeWhile_cons, List.dropWhile_cons]
    by_cases hc : p c = true
    · simpa [hc] using ih
    · simp [hc]

theorem split_takeWhile (p : Char → Bool) (l : Chars) :
    l = l.takeWhile p ++ l.drop (l.takeWhile p).length := by
  rw [drop_takeWhile]
  exact (List.takeWhile_append_dropWhile (p := p) (l := l)).symm

theorem matchCI_spec : ∀ (pat s m r : Chars), matchCI pat s = some (m, r) →
    s = m ++ r ∧ m.map Char.toLower = pat.map Char.toLower
  | [], s, m, r => by
    intro h
    rw [matchCI] at h
    simp only [Option.some.injEq, Prod.mk.injEq] at h
    rw [← h.1, ← h.2]
    exact ⟨rfl, rfl⟩
  | p :: ps, [], m, r => by
    intro h
    exact absurd h (by rw [matchCI]; simp)
  | p :: ps, c :: cs, m, r => by
    intro h
    rw [matchCI] at h
    by_cases hc : c.toLower = p.toLower
    · rw [if_pos hc] at h
      cases hm : matchCI ps cs with
      | none => rw [hm] at h; exact absurd h (by simp)
      | some mr =>
        obtain ⟨m2, r2⟩ := mr
        rw [hm] at h
        simp only [Option.map_some', Option.some.injEq, Prod.mk.injEq] at h
        obtain ⟨h1, h2⟩ := h
        obtain ⟨hs, hl⟩ := matchCI_spec ps cs m2 r2 hm
        rw [← h1, ← h2]
        exact ⟨by rw [hs]; rfl, by simp [hl, hc]⟩
    · rw [if_neg hc] at h
      exact absurd h (by simp)

theorem agoTail_spec {s t : Chars} (h : agoTail s = some t) :
    (∃ r, s = t ++ r) ∧ ∃ x y, t = x ++ y ∧ y.map Char.toLower = chs "ago" := by
  unfold agoTail at h
  simp only [] at h
  by_cases h1 : s.takeWhile wsC = []
  · rw [if_pos h1] at h
    exact absurd h (by simp)
  rw [if_neg h1] at h
  set s1 := s.drop (s.takeWhile wsC).length with hs1
  by_cases h2 : s1.takeWhile wordC = []
  · rw [if_pos h2] at h
    exact absurd h (by simp)
  rw [if_neg h2] at h
  set s2 := s1.drop (s1.takeWhile wordC).length with hs2
  by_cases h3 : s2.takeWhile wsC = []
  · rw [if_pos h3] at h
    exact absurd h (by simp)
  rw [if_neg h3] at h
  set s3 := s2.drop (s2.takeWhile wsC).length with hs3
  cases hm : matchCI (chs "ago") s3 with
  | none =>
    rw [hm] at h
    exact absurd h (by simp)
  | some mr =>
    obtain ⟨m, r⟩ := mr
    rw [hm] at h
    replace h : (if boundaryAfter r = true then
        some (s.takeWhile wsC ++ s1.takeWhile wordC ++ s2.takeWhile wsC ++ m)
      else none) = some t := h
    by_cases hb : boundaryAfter r = true
    · rw [if_pos hb] at h
      simp only [Option.some.injEq] at h
      obtain ⟨hsm, hlow⟩ := matchCI_spec _ _ _ _ hm
      constructor
      · refine ⟨r, ?_⟩
        rw [← h]
        calc s = s.takeWhile wsC ++ s1 := split_takeWhile wsC s
        _ = s.takeWhile wsC ++ (s1.takeWhile wordC ++ s2) := by
            rw [← split_takeWhile wordC s1]
        _ = s.takeWhile wsC ++ (s1.takeWhile wordC ++ (s2.takeWhile wsC ++ s3)) := by
            rw [← split_takeWhile wsC s2]
        _ = s.takeWhile wsC ++ (s1.takeWhile wordC ++ (s2.takeWhile wsC ++ (m ++ r))) := by
            rw [← hsm]
        _ = (s.takeWhile wsC ++ s1.takeWhile wordC ++ s2.takeWhile wsC ++ m) ++ r := by
            simp [List.append_assoc]
      · refine ⟨s.takeWhile wsC ++ s1.takeWhile wordC ++ s2.takeWhile wsC, m, ?_, ?_⟩
        · rw [← h]
        · rw [hlow]
          rfl
    · rw [if_neg hb] at h
      exact absurd h (by simp)

theorem tryBareAgo_spec {b : Bool} {s m : Chars} (h : tryBareAgo b s = some m) :
    (∃ r, s = m ++ r) ∧ ∃ x y, m = x ++ y ∧ y.map Char.toLower = chs "ago" := by
  unfold tryBareAgo at h
  by_cases hb : b = true
  · rw [if_pos hb] at h
    exact absurd h (by simp)
  rw [if_neg hb] at h
  simp only [] at h
  by_cases h1 : s.takeWhile Char.isDigit = []
  · rw [if_pos h1] at h
    exact absurd h (by simp)
  rw [if_neg h1] at h
  cases ht : agoTail (s.drop (s.takeWhile Char.isDigit).length) with
  | none => rw [ht] at h; exact absurd h (by simp)
  | some t =>
    rw [ht] at h
    simp only [Option.some.injEq] at h
    obtain ⟨⟨r, hr⟩, x, y, hxy, hlow⟩ := agoTail_spec ht
    constructor
    · refine ⟨r, ?_⟩
      rw [← h]
      calc s = s.takeWhile Char.isDigit ++ s.drop (s.takeWhile Char.isDigit).length :=
            split_takeWhile Char.isDigit s
        _ = s.takeWhile Char.isDigit ++ (t ++ r) := by rw [hr]
        _ = (s.takeWhile Char.isDigit ++ t) ++ r := by rw [List.append_assoc]
    · exact ⟨s.takeWhile Char.isDigit ++ x, y, by rw [← h, hxy, List.append_assoc], hlow⟩

theorem tryEdited_spec {b : Bool} {s m : Chars} (h : tryEdited b s = some m) :
    (∃ r, s = m ++ r) ∧ ∃ x y, m = x ++ y ∧ y.map Char.toLower = chs "ago" := by
  unfold tryEdited at h
  by_cases hb : b = true
  · rw [if_pos hb] at h
    exact absurd h (by simp)
  rw [if_neg hb] at h
  cases hme : matchCI (chs "edited") s with
  | none => rw [hme] at h; exact absurd h (by simp)
  | some mer =>
    obtain ⟨me, r1⟩ := mer
    rw [hme] at h
    simp only [] at h
    by_cases h1 : r1.takeWhile wsC = []
    · rw [if_pos h1] at h
      exact absurd h (by simp)
    rw [if_neg h1] at h
    set t1 := r1.drop (r1.takeWhile wsC).length with ht1
    by_cases h2 : t1.takeWhile Char.isDigit = []
    · rw [if_pos h2] at h
      exact absurd h (by simp)
    rw [if_neg h2] at h
    cases ht : agoTail (t1.drop (t1.takeWhile Char.isDigit).length) with
    | none => rw [ht] at h; exact absurd h (by simp)
    | some t =>
      rw [ht] at h
      simp only [Option.some.injEq] at h
      obtain ⟨⟨r, hr⟩, x, y, hxy, hlow⟩ := agoTail_spec ht
      obtain ⟨hs1, -⟩ := matchCI_spec _ _ _ _ hme
      constructor
      · refine ⟨r, ?_⟩
        rw [← h]
        calc s = me ++ r1 := hs1
          _ = me ++ (r1.takeWhile wsC ++ t1) := by rw [← split_takeWhile wsC r1]
          _ = me ++ (r1.takeWhile wsC ++
              (t1.takeWhile Char.isDigit ++ t1.drop (t1.takeWhile Char.isDigit).length)) := by
              rw [← split_takeWhile Char.isDigit t1]
          _ = me ++ (r1.takeWhile wsC ++ (t1.takeWhile Char.isDigit ++ (t ++ r))) := by
              rw [hr]
          _ = (me ++ r1.takeWhile wsC ++ t1.takeWhile Char.isDigit ++ t) ++ r := by
              simp [List.append_assoc]
      · refine ⟨me ++ r1.takeWhile wsC ++ t1.takeWhile Char.isDigit ++ x, y, ?_, hlow⟩
        rw [← h, hxy]
        simp [List.append_assoc]

theorem scanWith_nil (tryf : Bool → Chars → Option Chars) (b : Bool) :
    scanWith tryf b [] = none := rfl

theorem scanWith_cons (tryf : Bool → Chars → Option Chars) (b : Bool)
    (c : Char) (rest : Chars) :
    scanWith tryf b (c :: rest) =
      (match tryf b (c :: rest) with
       | some m => some m
       | none => scanWith tryf (wordC c) rest) := rfl

theorem scanWith_spec (tryf : Bool → Chars → Option Chars) :
    ∀ (s : Chars) (b : Bool) (m : Chars), scanWith tryf b s = some m →
      ∃ b2 pre s2, s = pre ++ s2 ∧ tryf b2 s2 = some m := by
  intro s
  induction s with
  | nil =>
    intro b m h
    rw [scanWith_nil] at h
    exact absurd h (by simp)
  | cons c rest ih =>
    intro b m h
    rw [scanWith_cons] at h
    cases ht : tryf b (c :: rest) with
    | some m2 =>
      rw [ht] at h
      simp only [Option.some.injEq] at h
      exact ⟨b, [], c :: rest, rfl, by rw [ht, h]⟩
    | none =>
      rw [ht] at h
      obtain ⟨b2, pre, s2, hs, h2⟩ := ih (wordC c) m h
      exact ⟨b2, c :: pre, s2, by rw [List.cons_append, hs], h2⟩

theorem ikScan_nil : ikScan [] = none := rfl

theorem ikScan_cons (c : Char) (rest : Chars) :
    ikScan (c :: rest) =
      (match tryIk (c :: rest) with
       | some m => some m
       | none => ikScan rest) := rfl

theorem ikScan_spec : ∀ (s m : Chars), ikScan s = some m →
    ∃ pre s2, s = pre ++ s2 ∧ tryIk s2 = some m := by
  intro s
  induction s with
  | nil =>
    intro m h
    rw [ikScan_nil] at h
    exact absurd h (by simp)
  | cons c rest ih =>
    intro m h
    rw [ikScan_cons] at h
    cases ht : tryIk (c :: rest) with
    | some m2 =>
      rw [ht] at h
      simp only [Option.some.injEq] at h
      exact ⟨[], c :: rest, rfl, by rw [ht, h]⟩
    | none =>
      rw [ht] at h
      obtain ⟨pre, s2, hs, h2⟩ := ih m h
      exact ⟨c :: pre, s2, by rw [List.cons_append, hs], h2⟩

theorem ikAfterScheme_spec {m1 m2 r2 m : Chars}
    (h : ikAfterScheme m1 m2 r2 = some m) :
    ∃ m3 body rest, r2 = m3 ++ body ++ rest ∧
      m = m1 ++ m2 ++ m3 ++ body ∧
      m3.map Char.toLower = chs "://ik.imagekit.io/" := by
  unfold ikAfterScheme at h
  cases hm : matchCI (chs "://ik.imagekit.io/") r2 with
  | none => rw [hm] at h; exact absurd h (by simp)
  | some mr =>
    obtain ⟨m3, r3⟩ := mr
    rw [hm] at h
    simp only [] at h
    by_cases hb : r3.takeWhile ikBody = []
    · rw [if_pos hb] at h
      exact absurd h (by simp)
    · rw [if_neg hb] at h
      simp only [Option.some.injEq] at h
      obtain ⟨hs, hlow⟩ := matchCI_spec _ _ _ _ hm
      refine ⟨m3, r3.takeWhile ikBody, r3.drop (r3.takeWhile ikBody).length, ?_, ?_, ?_⟩
      · rw [hs, List.append_assoc, ← split_takeWhile ikBody r3]
      · rw [← h]
      · rw [hlow]
        rfl

theorem tryIk_spec {s m : Chars} (h : tryIk s = some m) :
    (∃ r, s = m ++ r) ∧
    (pfx (chs "http://ik.imagekit.io/") (m.map Char.toLower) = true ∨
     pfx (chs "https://ik.imagekit.io/") (m.map Char.toLower) = true) := by
  unfold tryIk at h
  cases hm1 : matchCI (chs "http") s with
  | none => rw [hm1] at h; exact absurd h (by simp)
  | some mr =>
    obtain ⟨m1, r1⟩ := mr
    rw [hm1] at h
    obtain ⟨hs1, hlow1⟩ := matchCI_spec _ _ _ _ hm1
    have hlow1 : m1.map Char.toLower = chs "http" := by rw [hlow1]; rfl
    have hnos : ∀ (hns : ikAfterScheme m1 [] r1 = some m),
        (∃ r, s = m ++ r) ∧
        (pfx (chs "http://ik.imagekit.io/") (m.map Char.toLower) = true ∨
         pfx (chs "https://ik.imagekit.io/") (m.map Char.toLower) = true) := by
      intro hns
      obtain ⟨m3, body, rest, hr2, hm, hlow3⟩ := ikAfterScheme_spec hns
      constructor
      · refine ⟨rest, ?_⟩
        rw [hs1, hr2, hm]
        simp [List.append_assoc]
      · left
        rw [hm]
        simp only [List.map_append, List.append_nil]
        rw [hlow1, hlow3]
        rw [show chs "http" ++ chs "://ik.imagekit.io/" ++ body.map Char.toLower =
          chs "http://ik.imagekit.io/" ++ body.map Char.toLower from rfl]
        exact pfx_append_self _ _
    rcases r1 with _ | ⟨c, cs⟩
    · exact hnos h
    · replace h : (if c.toLower = 's' then
          (match ikAfterScheme m1 [c] cs with
           | some m2 => some m2
           | none => ikAfterScheme m1 [] (c :: cs))
          else ikAfterScheme m1 [] (c :: cs)) = some m := h
      by_cases hc : c.toLower = 's'
      · rw [if_pos hc] at h
        cases hik : ikAfterScheme m1 [c] cs with
        | none =>
          rw [hik] at h
          exact hnos h
        | some m2 =>
          rw [hik] at h
          simp only [Option.some.injEq] at h
          subst h
          obtain ⟨m3, body, rest, hr2, hm, hlow3⟩ := ikAfterScheme_spec hik
          constructor
          · refine ⟨rest, ?_⟩
            rw [hs1, hr2, hm]
            simp [List.append_assoc]
          · right
            rw [hm, List.map_append, List.map_append, List.map_append,
              List.map_cons, List.map_nil, hlow1, hlow3, hc]
            rw [show ((chs "http" ++ ['s']) ++ chs "://ik.imagekit.io/") =
              chs "https://ik.imagekit.io/" from rfl]
            exact pfx_append_self _ _
      · rw [if_neg hc] at h
        exact hnos h

/-! ### Lemmas about the selector cascade primitives -/

theorem firstText_cons_some {doc : Doc} {sel : Elem → Bool}
    {rest : List (Elem → Bool)} {e : Elem} (hf : doc.find? sel = some e) :
    firstText doc (sel :: rest) =
      (if jsTrim e.text ≠ [] then jsTrim e.text else firstText doc rest) := by
  conv_lhs => unfold firstText
  rw [hf]

theorem firstText_cons_none {doc : Doc} {sel : Elem → Bool}
    {rest : List (Elem → Bool)} (hf : doc.find? sel = none) :
    firstText doc (sel :: rest) = firstText doc rest := by
  conv_lhs => unfold firstText
  rw [hf]
  show (if ([] : Chars) ≠ [] then ([] : Chars) else firstText doc rest) =
    firstText doc rest
  rw [if_neg (by simp)]

theorem firstAttr_cons_some {doc : Doc} {g : Elem → Option Chars}
    {sel : Elem → Bool} {rest : List (Elem → Bool)} {e : Elem}
    (hf : doc.find? sel = some e) :
    firstAttr doc g (sel :: rest) =
      (if jsTrim (attrOr (g e)) ≠ [] then jsTrim (attrOr (g e))
       else firstAttr doc g rest) := by
  conv_lhs => unfold firstAttr
  rw [hf]

theorem firstAttr_cons_none {doc : Doc} {g : Elem → Option Chars}
    {sel : Elem → Bool} {rest : List (Elem → Bool)}
    (hf : doc.find? sel = none) :
    firstAttr doc g (sel :: rest) = firstAttr doc g rest := by
  conv_lhs => unfold firstAttr
  rw [hf]
  show (if ([] : Chars) ≠ [] then ([] : Chars) else firstAttr doc g rest) =
    firstAttr doc g rest
  rw [if_neg (by simp)]

theorem find?_none_of_sel {doc : Doc} {sel : Elem → Bool}
    (h : ∀ e ∈ doc, sel e = false) : doc.find? sel = none :=
  List.find?_eq_none.2 fun e he => by simp [h e he]

theorem firstText_none : ∀ {sels : List (Elem → Bool)} {doc : Doc},
    (∀ sel ∈ sels, ∀ e ∈ doc, sel e = false) → firstText doc sels = []
  | [], _, _ => rfl
  | sel :: rest, doc, h => by
    rw [firstText_cons_none
      (find?_none_of_sel (h sel (List.mem_cons_self sel rest)))]
    exact firstText_none fun s hs e he => h s (List.mem_cons_of_mem sel hs) e he

theorem firstAttr_none : ∀ {sels : List (Elem → Bool)} {doc : Doc}
    {g : Elem → Option Chars},
    (∀ sel ∈ sels, ∀ e ∈ doc, sel e = false) → firstAttr doc g sels = []
  | [], _, _, _ => rfl
  | sel :: rest, doc, g, h => by
    rw [firstAttr_cons_none
      (find?_none_of_sel (h sel (List.mem_cons_self sel rest)))]
    exact firstAttr_none fun s hs e he => h s (List.mem_cons_of_mem sel hs) e he

theorem firstAttr_spec : ∀ {sels : List (Elem → Bool)} {doc : Doc}
    {g : Elem → Option Chars}, firstAttr doc g sels ≠ [] →
    ∃ sel, sel ∈ sels ∧ ∃ e, e ∈ doc ∧ sel e = true ∧
      firstAttr doc g sels = jsTrim (attrOr (g e))
  | [], _, _, h => absurd rfl h
  | sel :: rest, doc, g, h => by
    cases hf : doc.find? sel with
    | none =>
      rw [firstAttr_cons_none hf] at h ⊢
      obtain ⟨s2, hs2, e2, he2, hsel2, heq⟩ := firstAttr_spec h
      exact ⟨s2, List.mem_cons_of_mem _ hs2, e2, he2, hsel2, heq⟩
    | some e =>
      rw [firstAttr_cons_some hf] at h ⊢
      by_cases hv : jsTrim (attrOr (g e)) ≠ []
      · rw [if_pos hv] at h ⊢
        exact ⟨sel, List.mem_cons_self _ _, e, List.mem_of_find?_eq_some hf,
          List.find?_some hf, rfl⟩
      · rw [if_neg hv] at h ⊢
        obtain ⟨s2, hs2, e2, he2, hsel2, heq⟩ := firstAttr_spec h
        exact ⟨s2, List.mem_cons_of_mem _ hs2, e2, he2, hsel2, heq⟩

theorem fmfl_cons (p : Chars → Bool) (e : Elem) (rest : Doc) :
    firstMatchFromLinks p (e :: rest) =
      (if e.tag = chs "a" then
        if p (jsTrim (attrOr e.href)) then
          (if jsTrim e.text ≠ [] then jsTrim e.text
           else firstMatchFromLinks p rest)
        else firstMatchFromLinks p rest
      else firstMatchFromLinks p rest) := rfl

theorem fmfl_none : ∀ {doc : Doc} {p : Chars → Bool},
    (∀ e ∈ doc, e.tag ≠ chs "a") → firstMatchFromLinks p doc = []
  | [], _, _ => rfl
  | e :: rest, p, h => by
    rw [fmfl_cons, if_neg (h e (List.mem_cons_self e rest))]
    exact fmfl_none fun e2 he2 => h e2 (List.mem_cons_of_mem e he2)

/-! ### Lemmas about the URL normalizer -/

theorem absUrl_eq (m : Chars) : absUrl m =
    (if jsTrim m = [] then [] else
     if pfx (chs "http://") (jsTrim m) || pfx (chs "https://") (jsTrim m)
       then jsTrim m else
     if pfx (chs "//") (jsTrim m) then chs "https:" ++ jsTrim m else
     if pfx (chs "/") (jsTrim m) then chs "https://7sage.com" ++ jsTrim m else
     jsTrim m) := by
  unfold absUrl
  by_cases hm : m = []
  · subst hm
    decide
  · rw [if_neg hm]

theorem pfx_http_of_slash (t : Chars) :
    pfx (chs "http://") ('/' :: t) = false := rfl

theorem pfx_https_of_slash (t : Chars) :
    pfx (chs "https://") ('/' :: t) = false := rfl

theorem isAbsCI_sage (t : Chars) :
    isAbsCI (chs "https://7sage.com" ++ t) = true := rfl

theorem isAbsCI_protorel (t : Chars) :
    isAbsCI (chs "https:" ++ '/' :: '/' :: t) = true := rfl

theorem isAbsCI_http_lit (t : Chars) : isAbsCI (chs "http://" ++ t) = true := rfl

theorem isAbsCI_https_lit (t : Chars) :
    isAbsCI (chs "https://" ++ t) = true := rfl

/-- Key branch lemma: any reference in a `goodRef` form with a non-blank
trim is normalized by `absUrl` to an absolute URL. -/
theorem absUrl_goodRef {v : Chars} (hg : goodRef v = true)
    (hne : jsTrim v ≠ []) : isAbsCI (absUrl v) = true := by
  rw [absUrl_eq, if_neg hne]
  unfold goodRef at hg
  simp only [Bool.or_eq_true, decide_eq_true_eq] at hg
  rcases hg with ((hv | hv) | hv) | hv
  · exact absurd (by rw [hv]; rfl) hne
  · -- v starts with "/"
    obtain ⟨t, rfl⟩ := (pfx_iff _ _).1 hv
    have hp : pfx (chs "/") (jsTrim (chs "/" ++ t)) = true :=
      pfx_jsTrim (pfx_append_self (chs "/") t) (by decide) (by decide)
    obtain ⟨u, hu0⟩ := (pfx_iff _ _).1 hp
    have hu : jsTrim (chs "/" ++ t) = '/' :: u := hu0
    rw [hu, pfx_http_of_slash, pfx_https_of_slash]
    rw [if_neg (by simp)]
    cases u with
    | nil =>
      rw [if_neg (by decide), if_pos (by decide)]
      exact isAbsCI_sage ['/']
    | cons c u2 =>
      by_cases hc : c = '/'
      · subst hc
        rw [if_pos (show pfx (chs "//") ('/' :: '/' :: u2) = true from rfl)]
        exact isAbsCI_protorel u2
      · have hne2 : ¬(pfx (chs "//") ('/' :: c :: u2) = true) := by
          rw [show chs "//" = '/' :: '/' :: [] from rfl, pfx_cons_cons,
            pfx_cons_cons]
          simp only [Bool.and_eq_true, decide_eq_true_eq]
          intro hcontra
          exact hc hcontra.2.1.symm
        rw [if_neg hne2,
          if_pos (show pfx (chs "/") ('/' :: c :: u2) = true from rfl)]
        exact isAbsCI_sage ('/' :: c :: u2)
  · -- v starts with "http://"
    obtain ⟨t, rfl⟩ := (pfx_iff _ _).1 hv
    have hp : pfx (chs "http://") (jsTrim (chs "http://" ++ t)) = true :=
      pfx_jsTrim (pfx_append_self _ t) (by decide) (by decide)
    obtain ⟨u, hu⟩ := (pfx_iff _ _).1 hp
    rw [hu, show pfx (chs "http://") (chs "http://" ++ u) = true from
      pfx_append_self _ u]
    rw [if_pos (by simp)]
    exact isAbsCI_http_lit u
  · -- v starts with "https://"
    obtain ⟨t, rfl⟩ := (pfx_iff _ _).1 hv
    have hp : pfx (chs "https://") (jsTrim (chs "https://" ++ t)) = true :=
      pfx_jsTrim (pfx_append_self _ t) (by decide) (by decide)
    obtain ⟨u, hu⟩ := (pfx_iff _ _).1 hp
    rw [hu, show pfx (chs "https://") (chs "https://" ++ u) = true from
      pfx_append_self _ u]
    rw [if_pos (by simp)]
    exact isAbsCI_https_lit u

/-! ### Resolver-level helper lemmas -/

theorem ikScan_none {html : Chars}
    (h : hasSub (chs "http") (html.map Char.toLower) = false) :
    ikScan html = none := by
  cases hik : ikScan html with
  | none => rfl
  | some m =>
    exfalso
    obtain ⟨pre, s2, hs, ht⟩ := ikScan_spec _ _ hik
    obtain ⟨⟨r, hr⟩, hp⟩ := tryIk_spec ht
    have hm : pfx (chs "http") (m.map Char.toLower) = true := by
      rcases hp with hp | hp
      · obtain ⟨t, htt⟩ := (pfx_iff _ _).1 hp
        rw [htt]
        exact (pfx_iff _ _).2 ⟨chs "://ik.imagekit.io/" ++ t, rfl⟩
      · obtain ⟨t, htt⟩ := (pfx_iff _ _).1 hp
        rw [htt]
        exact (pfx_iff _ _).2 ⟨chs "s://ik.imagekit.io/" ++ t, rfl⟩
    obtain ⟨t2, hm2⟩ := (pfx_iff _ _).1 hm
    have hcontra : hasSub (chs "http") (html.map Char.toLower) = true := by
      rw [hs, hr]
      refine (hasSub_iff _ _).2
        ⟨pre.map Char.toLower, t2 ++ r.map Char.toLower, ?_⟩
      simp only [List.map_append]
      rw [hm2]
      simp [List.append_assoc]
    rw [hcontra] at h
    cases h

theorem scan_ago_none {html : Chars} {tryf : Bool → Chars → Option Chars}
    (hspec : ∀ {b : Bool} {s m : Chars}, tryf b s = some m →
      (∃ r, s = m ++ r) ∧ ∃ x y, m = x ++ y ∧ y.map Char.toLower = chs "ago")
    (h : hasSub (chs "ago") (html.map Char.toLower) = false) :
    scanWith tryf false html = none := by
  cases hsc : scanWith tryf false html with
  | none => rfl
  | some m =>
    exfalso
    obtain ⟨b2, pre, s2, hs, ht⟩ := scanWith_spec _ _ _ _ hsc
    obtain ⟨⟨r, hr⟩, x, y, hxy, hlow⟩ := hspec ht
    have hcontra : hasSub (chs "ago") (html.map Char.toLower) = true := by
      rw [hs, hr, hxy]
      refine (hasSub_iff _ _).2
        ⟨pre.map Char.toLower ++ x.map Char.toLower, r.map Char.toLower, ?_⟩
      simp only [List.map_append]
      rw [hlow]
      simp [List.append_assoc]
    rw [hcontra] at h
    cases h

theorem editedScan_none {html : Chars}
    (h : hasSub (chs "ago") (html.map Char.toLower) = false) :
    editedScan html = none :=
  scan_ago_none (fun ht => tryEdited_spec ht) h

theorem agoScan_none {html : Chars}
    (h : hasSub (chs "ago") (html.map Char.toLower) = false) :
    agoScan html = none :=
  scan_ago_none (fun ht => tryBareAgo_spec ht) h

theorem findTopic_no_links {doc : Doc} (h : ∀ e ∈ doc, e.tag ≠ chs "a") :
    findTopic doc = ([], []) := by
  unfold findTopic
  have hfil : doc.filter topicSel = [] :=
    List.filter_eq_nil_iff.2 fun e he => by
      unfold topicSel
      simp [h e he]
  rw [hfil]
  rfl

theorem findUsername_no_links {doc : Doc} (h : ∀ e ∈ doc, e.tag ≠ chs "a") :
    findUsername doc = [] := by
  have h1 : ∀ sel ∈ [selUser1, selUser2, selUser3, selUser4],
      ∀ e ∈ doc, sel e = false := by
    intro sel hs e he
    simp only [List.mem_cons, List.not_mem_nil, or_false] at hs
    rcases hs with rfl | rfl | rfl | rfl <;>
      simp [selUser1, selUser2, selUser3, selUser4, h e he]
  unfold findUsername
  rw [firstText_none h1, fmfl_none h]
  decide

theorem avatarSrcSels_tag {sel : Elem → Bool} {e : Elem}
    (hs : sel ∈ avatarSrcSels) (h : sel e = true) : e.tag = chs "img" := by
  unfold avatarSrcSels at hs
  simp only [List.mem_cons, List.not_mem_nil, or_false] at hs
  rcases hs with rfl | rfl | rfl | rfl <;>
    · simp only [selAv1, selAv2, selAv3, selAv4, Bool.and_eq_true,
        decide_eq_true_eq] at h
      exact h.1.1

theorem avatarSetSels_tag {sel : Elem → Bool} {e : Elem}
    (hs : sel ∈ avatarSetSels) (h : sel e = true) : e.tag = chs "img" := by
  unfold avatarSetSels at hs
  simp only [List.mem_cons, List.not_mem_nil, or_false] at hs
  rcases hs with rfl | rfl | rfl | rfl | rfl <;>
    first
    | (simp only [selAvSet1, selAvSet2, selAvSet3, selAvSet4, Bool.and_eq_true,
        decide_eq_true_eq] at h
       exact h.1.1)
    | (simp only [selAvSet5, Bool.and_eq_true, decide_eq_true_eq] at h
       exact h.1)

theorem findAvatar_eq (doc : Doc) (html : Chars) : findAvatar doc html =
    (if firstAttr doc (fun e => e.src) avatarSrcSels ≠ [] then
      absUrl (firstAttr doc (fun e => e.src) avatarSrcSels) else
    if firstAttr doc (fun e => e.src) [selAvCdn] ≠ [] then
      absUrl (firstAttr doc (fun e => e.src) [selAvCdn]) else
    if parseFirstUrlFromSrcset (firstAttr doc (fun e => e.srcset) avatarSetSels) ≠ []
      then absUrl (parseFirstUrlFromSrcset
        (firstAttr doc (fun e => e.srcset) avatarSetSels)) else
    match ikScan html with
    | some m => m
    | none => []) := rfl

theorem findAvatar_no_imgs {doc : Doc} {html : Chars}
    (h : ∀ e ∈ doc, e.tag ≠ chs "img") :
    findAvatar doc html = ((ikScan html).getD []) := by
  rw [findAvatar_eq]
  rw [firstAttr_none fun sel hs e he => by
    cases hx : sel e
    · rfl
    · exact absurd (avatarSrcSels_tag hs hx) (h e he)]
  rw [show firstAttr doc (fun e => e.src) [selAvCdn] = [] from
    firstAttr_none fun sel hs e he => by
      simp only [List.mem_singleton] at hs
      subst hs
      simp [selAvCdn, h e he]]
  rw [firstAttr_none fun sel hs e he => by
    cases hx : sel e
    · rfl
    · exact absurd (avatarSetSels_tag hs hx) (h e he)]
  cases hik : ikScan html <;> rfl

theorem findWhen_eq (doc : Doc) (html : Chars) : findWhen doc html =
    (if (if firstAttr doc (fun e => e.datetime) [selTimeDt] = []
          then firstText doc [selTime]
          else firstAttr doc (fun e => e.datetime) [selTimeDt]) ≠ [] then
      collapseWsTrim (if firstAttr doc (fun e => e.datetime) [selTimeDt] = []
          then firstText doc [selTime]
          else firstAttr doc (fun e => e.datetime) [selTimeDt]) else
    match editedScan html with
    | some m => collapseWsTrim m
    | none =>
      match agoScan html with
      | some m => collapseWsTrim m
      | none => []) := rfl

theorem findWhen_no_time {doc : Doc} {html : Chars}
    (h : ∀ e ∈ doc, e.tag ≠ chs "time")
    (hE : editedScan html = none) (hA : agoScan html = none) :
    findWhen doc html = [] := by
  rw [findWhen_eq]
  rw [show firstAttr doc (fun e => e.datetime) [selTimeDt] = [] from
    firstAttr_none fun sel hs e he => by
      simp only [List.mem_singleton] at hs
      subst hs
      simp [selTimeDt, h e he]]
  rw [show firstText doc [selTime] = [] from
    firstText_none fun sel hs e he => by
      simp only [List.mem_singleton] at hs
      subst hs
      simp [selTime, h e he]]
  rw [hE, hA]
  decide

/-! ### Claim theorems -/

/-- C1: the extraction operation is total (modelled as a total Lean
function) and always returns a structurally complete record: every field
is a string, `title` is always empty, `url` echoes the input URL, and on
a document with no link, image or time elements and raw html containing
neither an `ago` phrase nor an `http` occurrence (no field-relevant
markup), all scrapeable fields are the empty string. -/
theorem C1_extract_structural (doc : Doc) (html url : Chars) :
    ((extract doc html url).title = [] ∧ (extract doc html url).url = url) ∧
    ((∀ e ∈ doc, e.tag ≠ chs "a" ∧ e.tag ≠ chs "img" ∧ e.tag ≠ chs "time") →
     hasSub (chs "ago") (html.map Char.toLower) = false →
     hasSub (chs "http") (html.map Char.toLower) = false →
     (extract doc html url).topic = [] ∧ (extract doc html url).topicUrl = [] ∧
     (extract doc html url).username = [] ∧
     (extract doc html url).avatar = [] ∧
     (extract doc html url).whenText = []) := by
  refine ⟨⟨rfl, rfl⟩, ?_⟩
  intro htags hago hhttp
  have hA : ∀ e ∈ doc, e.tag ≠ chs "a" := fun e he => (htags e he).1
  have hI : ∀ e ∈ doc, e.tag ≠ chs "img" := fun e he => (htags e he).2.1
  have hT : ∀ e ∈ doc, e.tag ≠ chs "time" := fun e he => (htags e he).2.2
  refine ⟨?_, ?_, ?_, ?_, ?_⟩
  · show (findTopic doc).1 = []
    rw [findTopic_no_links hA]
  · show (findTopic doc).2 = []
    rw [findTopic_no_links hA]
  · exact findUsername_no_links hA
  · show findAvatar doc html = []
    rw [findAvatar_no_imgs hI, ikScan_none hhttp]
    rfl
  · exact findWhen_no_time hT (editedScan_none hago) (agoScan_none hago)

/-- C1 witness: a concrete page with no field-relevant markup. -/
theorem C1_witness :
    (extract [] (chs "<p>hello</p>") (chs "https://7sage.com/discussion/1")).topic
        = [] ∧
    (extract [] (chs "<p>hello</p>")
        (chs "https://7sage.com/discussion/1")).avatar = [] :=
  ⟨((C1_extract_structural [] (chs "<p>hello</p>")
      (chs "https://7sage.com/discussion/1")).2
      (by decide) (by decide) (by decide)).1,
   ((C1_extract_structural [] (chs "<p>hello</p>")
      (chs "https://7sage.com/discussion/1")).2
      (by decide) (by decide) (by decide)).2.2.2.1⟩

/-- C6 counterexample: the claim says rules 2 and 5 return the input
*unchanged* and that rule 4 uses a caller-supplied origin hint.  `absUrl`
trims every input first (so `" foo "` is not returned unchanged) and has
no origin parameter: `/x` resolves against the fixed host `7sage.com`,
never against `forum.example`. -/
theorem C6_counterexample :
    absUrl (chs " foo ") = chs "foo" ∧ chs " foo " ≠ chs "foo" ∧
    absUrl (chs "/x") = chs "https://7sage.com/x" ∧
    chs "https://7sage.com/x" ≠ chs "https://forum.example/x" := by
  refine ⟨by decide, by decide, by decide, by decide⟩

/-- C6 (amended): `absUrl` takes only the reference; the origin is fixed
to `7sage.com`, the reference is trimmed, and the five rules apply to the
trimmed reference in order — blank input gives `""`, an `http://`/`https://`
input is returned trimmed, `//` is prefixed with `https:`, `/` is
prefixed with `https://7sage.com`, anything else is returned trimmed; no
input raises (the function is total).  In particular
`absUrl "/x" = "https://7sage.com/x"`. -/
theorem C6_absUrl_rules (m : Chars) :
    (jsTrim m = [] → absUrl m = []) ∧
    ((pfx (chs "http://") (jsTrim m) = true ∨
      pfx (chs "https://") (jsTrim m) = true) → absUrl m = jsTrim m) ∧
    (pfx (chs "//") (jsTrim m) = true →
      pfx (chs "http://") (jsTrim m) = false →
      pfx (chs "https://") (jsTrim m) = false →
      absUrl m = chs "https:" ++ jsTrim m) ∧
    (pfx (chs "/") (jsTrim m) = true →
      pfx (chs "//") (jsTrim m) = false →
      pfx (chs "http://") (jsTrim m) = false →
      pfx (chs "https://") (jsTrim m) = false →
      absUrl m = chs "https://7sage.com" ++ jsTrim m) ∧
    (pfx (chs "/") (jsTrim m) = false →
      pfx (chs "http://") (jsTrim m) = false →
      pfx (chs "https://") (jsTrim m) = false →
      absUrl m = jsTrim m) ∧
    absUrl (chs "/x") = chs "https://7sage.com/x" := by
  refine ⟨?_, ?_, ?_, ?_, ?_, by decide⟩
  · intro h0
    rw [absUrl_eq, if_pos h0]
  · intro h
    have hne : jsTrim m ≠ [] := by
      rcases h with h | h
      · exact ne_nil_of_pfx (by decide) h
      · exact ne_nil_of_pfx (by decide) h
    rw [absUrl_eq, if_neg hne, if_pos (by rcases h with h | h <;> simp [h])]
  · intro h2 ha hb
    have hne : jsTrim m ≠ [] := ne_nil_of_pfx (by decide) h2
    rw [absUrl_eq, if_neg hne, if_neg (by simp [ha, hb]), if_pos h2]
  · intro h3 h2 ha hb
    have hne : jsTrim m ≠ [] := ne_nil_of_pfx (by decide) h3
    rw [absUrl_eq, if_neg hne, if_neg (by simp [ha, hb]), if_neg (by simp [h2]),
      if_pos h3]
  · intro h3 ha hb
    by_cases h0 : jsTrim m = []
    · rw [absUrl_eq, if_pos h0, h0]
    · have h2 : pfx (chs "//") (jsTrim m) = false := by
        cases hx : pfx (chs "//") (jsTrim m)
        · rfl
        · obtain ⟨t, ht⟩ := (pfx_iff _ _).1 hx
          rw [ht] at h3
          have hone : pfx (chs "/") (chs "//" ++ t) = true := rfl
          rw [hone] at h3
          cases h3
      rw [absUrl_eq, if_neg h0, if_neg (by simp [ha, hb]), if_neg (by simp [h2]),
        if_neg (by simp [h3])]

/-- C6 witness: a root-relative reference with surrounding whitespace. -/
theorem C6_witness :
    absUrl (chs " /x ") = chs "https://7sage.com" ++ jsTrim (chs " /x ") :=
  (C6_absUrl_rules (chs " /x ")).2.2.2.1 (by decide) (by decide) (by decide)
    (by decide)

/-- C9: the end-to-end scenario — on a document with the profile link
(`J. Doe`), the topic link (`General`), the numeric permalink, the
avatar-classed image and the time element, extraction returns exactly the
record the spec lists (with origin `7sage.com`). -/
theorem C9_end_to_end :
    extract doc9 (chs "") (chs "https://7sage.com/discussion/54829/some-post") =
      { url := chs "https://7sage.com/discussion/54829/some-post"
        title := []
        topic := chs "General"
        topicUrl := chs "https://7sage.com/discussion/categories/general"
        username := chs "J. Doe"
        avatar := chs "https://7sage.com/images/u1.jpg"
        whenText := chs "2024-01-05T10:00:00Z" } := by
  decide

/-- C10: the Avatar Resolver's raw-html last resort matches only literal
absolute URLs whose host is exactly `ik.imagekit.io` (case-insensitively:
every match lowercases to an `http(s)://ik.imagekit.io/` prefix), and the
resolver returns the matched text itself, not a normalization of it; on a
document without image elements whose only CDN URL sits in raw text on a
different imagekit.io subdomain, the resolver returns `""`. -/
theorem C10_ik_last_resort :
    (∀ html m : Chars, ikScan html = some m →
      pfx (chs "http://ik.imagekit.io/") (m.map Char.toLower) = true ∨
      pfx (chs "https://ik.imagekit.io/") (m.map Char.toLower) = true) ∧
    (∀ (doc : Doc) (html : Chars), (∀ e ∈ doc, e.tag ≠ chs "img") →
      findAvatar doc html = (ikScan html).getD []) ∧
    findAvatar c10Doc c10Html = [] := by
  refine ⟨?_, ?_, by decide⟩
  · intro html m h
    obtain ⟨pre, s2, hs, ht⟩ := ikScan_spec _ _ h
    exact (tryIk_spec ht).2
  · intro doc html h
    exact findAvatar_no_imgs h

/-- C10 witness: a literal `ik.imagekit.io` URL in raw text is found and
returned as matched. -/
theorem C10_witness :
    (pfx (chs "http://ik.imagekit.io/")
        ((chs "https://ik.imagekit.io/a.png").map Char.toLower) = true ∨
     pfx (chs "https://ik.imagekit.io/")
        ((chs "https://ik.imagekit.io/a.png").map Char.toLower) = true) ∧
    findAvatar [] (chs "x https://ik.imagekit.io/a.png y") =
      (ikScan (chs "x https://ik.imagekit.io/a.png y")).getD [] :=
  ⟨C10_ik_last_resort.1 (chs "x https://ik.imagekit.io/a.png y")
      (chs "https://ik.imagekit.io/a.png") (by decide),
   C10_ik_last_resort.2.1 [] (chs "x https://ik.imagekit.io/a.png y")
      (by intro e he; cases he)⟩

theorem sdWhen_normalized (sd : Option StructuredData) :
    isNormalized (sdWhen sd) = true := by
  unfold sdWhen
  cases sd with
  | none => decide
  | some d =>
    show isNormalized (if jsTrim d.dateModified ≠ [] then
      collapseWsTrim d.dateModified else collapseWsTrim d.datePublished) = true
    by_cases h : jsTrim d.dateModified ≠ []
    · rw [if_pos h]
      exact isNormalized_collapseWsTrim _
    · rw [if_neg h]
      exact isNormalized_collapseWsTrim _

theorem findWhen_normalized (doc : Doc) (html : Chars) :
    isNormalized (findWhen doc html) = true := by
  rw [findWhen_eq]
  by_cases h1 : (if firstAttr doc (fun e => e.datetime) [selTimeDt] = []
      then firstText doc [selTime]
      else firstAttr doc (fun e => e.datetime) [selTimeDt]) ≠ []
  · rw [if_pos h1]
    exact isNormalized_collapseWsTrim _
  · rw [if_neg h1]
    cases hE : editedScan html with
    | some mm => exact isNormalized_collapseWsTrim mm
    | none =>
      cases hA : agoScan html with
      | some mm => exact isNormalized_collapseWsTrim mm
      | none => decide

/-- C5: the When Resolver evaluates its steps in order — the `datetime`
attribute of the first time element first (second conjunct), the regex
steps only inside `findWhen` (concrete cases: `Edited 5 minutes ago`
before the bare phrase, `3 days ago`, ragged whitespace in a time
element's text), the spec-modelled structured-data date (`dateModified`
preferred, normalized) only when steps 1-4 produce nothing — and every
result is whitespace-normalized (first conjunct). -/
theorem C5_when_resolver :
    (∀ (doc : Doc) (html : Chars) (sd : Option StructuredData),
      isNormalized (findWhenFull doc html sd) = true) ∧
    (∀ (doc : Doc) (html : Chars),
      firstAttr doc (fun e => e.datetime) [selTimeDt] ≠ [] →
      findWhen doc html =
        collapseWsTrim (firstAttr doc (fun e => e.datetime) [selTimeDt])) ∧
    (∀ (doc : Doc) (html : Chars) (sd : Option StructuredData),
      findWhen doc html ≠ [] → findWhenFull doc html sd = findWhen doc html) ∧
    (∀ (doc : Doc) (html : Chars) (sd : Option StructuredData),
      findWhen doc html = [] → findWhenFull doc html sd = sdWhen sd) ∧
    findWhen [] (chs "<p>Edited 5 minutes ago</p>") =
      chs "Edited 5 minutes ago" ∧
    findWhen [] (chs "<p>3 days ago</p>") = chs "3 days ago" ∧
    findWhen [c5TimeElem] (chs "") = chs "3 days ago" ∧
    findWhen [c5DtElem] (chs "") = chs "2024-01-05T10:00:00Z" ∧
    findWhenFull [] (chs "") (some c5Sd) = chs "2024-02-03 10:00" := by
  refine ⟨?_, ?_, ?_, ?_, by decide, by decide, by decide, by decide, by decide⟩
  · intro doc html sd
    unfold findWhenFull
    by_cases h : findWhen doc html ≠ []
    · rw [if_pos h]
      exact findWhen_normalized doc html
    · rw [if_neg h]
      exact sdWhen_normalized sd
  · intro doc html h
    rw [findWhen_eq, if_neg h, if_pos h]
  · intro doc html sd h
    unfold findWhenFull
    rw [if_pos h]
  · intro doc html sd h
    unfold findWhenFull
    rw [if_neg (by simp [h])]

/-- C5 witness: the datetime step fires on a concrete document; the
structured-data step fires when the source steps yield nothing. -/
theorem C5_witness :
    findWhen [c5DtElem] (chs "stuff") =
      collapseWsTrim (firstAttr [c5DtElem] (fun e => e.datetime) [selTimeDt]) ∧
    findWhenFull [] (chs "nothing here") (some c5Sd) = sdWhen (some c5Sd) :=
  ⟨C5_when_resolver.2.1 [c5DtElem] (chs "stuff") (by decide),
   C5_when_resolver.2.2.2.1 [] (chs "nothing here") (some c5Sd) (by decide)⟩

theorem jsTrim_findUsername (doc : Doc) :
    jsTrim (findUsername doc) = findUsername doc := by
  unfold findUsername
  exact jsTrim_idem _

theorem jsTrim_authorByline (doc : Doc) :
    jsTrim (authorBylineText doc) = authorBylineText doc := by
  unfold authorBylineText
  split
  · exact jsTrim_idem _
  · rfl

theorem jsTrim_sdAuthor (sd : Option StructuredData) :
    jsTrim (sdAuthorName sd) = sdAuthorName sd := by
  unfold sdAuthorName
  cases sd with
  | some d => exact jsTrim_idem _
  | none => rfl

/-- C3: when the source's profile-link steps (1-2, `findUsername`) yield
nothing, the full resolver falls back to the spec-modelled author/byline
class text and then to the structured-data `author.name` (parse failures
being `none`); the first non-empty trimmed result of the cascade wins
(the result is always trimmed), otherwise the empty string.  Concrete
cases pin the order: byline beats structured data, profile link beats
byline, structured data alone is used, and everything empty gives `""`. -/
theorem C3_username_cascade :
    (∀ (doc : Doc) (sd : Option StructuredData), findUsername doc = [] →
      findUsernameFull doc sd =
        (if authorBylineText doc ≠ [] then authorBylineText doc
         else sdAuthorName sd)) ∧
    (∀ (doc : Doc) (sd : Option StructuredData), findUsername doc ≠ [] →
      findUsernameFull doc sd = findUsername doc) ∧
    (∀ (doc : Doc) (sd : Option StructuredData),
      jsTrim (findUsernameFull doc sd) = findUsernameFull doc sd) ∧
    findUsernameFull c3Doc (some c3Sd) = chs "Jane Byline" ∧
    findUsernameFull c3Doc2 (some c3Sd) = chs "ProfileUser" ∧
    findUsernameFull [] (some c3Sd) = chs "Author Name" ∧
    findUsernameFull [] none = [] := by
  refine ⟨?_, ?_, ?_, by decide, by decide, by decide, by decide⟩
  · intro doc sd h
    unfold findUsernameFull
    rw [if_neg (by simp [h])]
  · intro doc sd h
    unfold findUsernameFull
    rw [if_pos h]
  · intro doc sd
    unfold findUsernameFull
    by_cases h : findUsername doc ≠ []
    · rw [if_pos h]
      exact jsTrim_findUsername doc
    · rw [if_neg h]
      by_cases ha : authorBylineText doc ≠ []
      · rw [if_pos ha]
        exact jsTrim_authorByline doc
      · rw [if_neg ha]
        exact jsTrim_sdAuthor sd

/-- C3 witness: a document on which steps 1-2 yield nothing. -/
theorem C3_witness :
    findUsernameFull c3Doc (some c3Sd) =
      (if authorBylineText c3Doc ≠ [] then authorBylineText c3Doc
       else sdAuthorName (some c3Sd)) :=
  C3_username_cascade.1 c3Doc (some c3Sd) (by decide)

theorem avatarSrcSels_sound {sel : Elem → Bool} {e : Elem}
    (hs : sel ∈ avatarSrcSels) (h : sel e = true) :
    avatarHintedCS e = true ∧ e.src.isSome = true := by
  unfold avatarSrcSels at hs
  simp only [List.mem_cons, List.not_mem_nil, or_false] at hs
  unfold avatarHintedCS
  rcases hs with rfl | rfl | rfl | rfl <;>
    · simp only [selAv1, selAv2, selAv3, selAv4, Bool.and_eq_true,
        decide_eq_true_eq] at h
      simp only [Bool.and_eq_true, Bool.or_eq_true, decide_eq_true_eq]
      tauto

theorem hint_to_sel {e : Elem} (h : avatarHintedCS e = true)
    (hs : e.src.isSome = true) :
    selAv1 e = true ∨ selAv2 e = true ∨ selAv3 e = true ∨ selAv4 e = true := by
  unfold avatarHintedCS at h
  simp only [Bool.and_eq_true, Bool.or_eq_true, decide_eq_true_eq] at h
  simp only [selAv1, selAv2, selAv3, selAv4, Bool.and_eq_true,
    decide_eq_true_eq]
  tauto

theorem firstAttr_ne_of : ∀ {sels : List (Elem → Bool)} {doc : Doc}
    {g : Elem → Option Chars},
    (∀ sel ∈ sels, ∀ e ∈ doc, sel e = true → jsTrim (attrOr (g e)) ≠ []) →
    (∃ sel ∈ sels, ∃ e ∈ doc, sel e = true) →
    firstAttr doc g sels ≠ []
  | [], _, _, _, hex => by
    obtain ⟨sel, hs, -⟩ := hex
    cases hs
  | sel :: rest, doc, g, hv, hex => by
    cases hf : doc.find? sel with
    | some e =>
      rw [firstAttr_cons_some hf]
      have hne : jsTrim (attrOr (g e)) ≠ [] :=
        hv sel (List.mem_cons_self _ _) e (List.mem_of_find?_eq_some hf)
          (List.find?_some hf)
      rw [if_pos hne]
      exact hne
    | none =>
      rw [firstAttr_cons_none hf]
      refine firstAttr_ne_of
        (fun s hs e he hse => hv s (List.mem_cons_of_mem _ hs) e he hse) ?_
      obtain ⟨s, hs, e, he, hse⟩ := hex
      rcases List.mem_cons.1 hs with rfl | hs2
      · exact absurd hse (List.find?_eq_none.1 hf e he)
      · exact ⟨s, hs2, e, he, hse⟩

/-- C4 counterexample: the claim's case-insensitive hint and its priority
statement both fail on the code.  (a) With class `AVATAR` (hinted
case-insensitively, with a direct src) and a different CDN image, the
selectors `class*="Avatar"`/`class*="avatar"` miss it and the CDN image
wins.  (b) Even with a case-matching hint, an earlier avatar-classed
image with a blank src shadows the selector's `.first()` and the CDN
image wins although a hinted image with a usable src exists. -/
theorem C4_counterexample :
    (avatarHintedCI c4ImgUpper = true ∧ jsTrim (attrOr c4ImgUpper.src) ≠ [] ∧
     findAvatar c4DocA (chs "") = chs "https://x.imagekit.io/y.png" ∧
     findAvatar c4DocA (chs "") ≠ absUrl (jsTrim (attrOr c4ImgUpper.src))) ∧
    (avatarHintedCI c4ImgGood = true ∧ jsTrim (attrOr c4ImgGood.src) ≠ [] ∧
     findAvatar c4DocB (chs "") = chs "https://ik.imagekit.io/c.png" ∧
     findAvatar c4DocB (chs "") ≠ absUrl (jsTrim (attrOr c4ImgGood.src))) := by
  refine ⟨⟨by decide, by decide, by decide, by decide⟩,
    ⟨by decide, by decide, by decide, by decide⟩⟩

/-- C4 (amended): for a document containing an image whose class or alt
contains the substring `Avatar` or `avatar` (case-sensitively, as the
selectors do) with a src that trims non-empty — provided every such
hinted image that carries a `src` attribute carries a non-blank one, so
no blank-src image shadows the cascade — the resolver's result is the
avatar step's value: the normalized src of an avatar-hinted image, never
the CDN step's. -/
theorem C4_avatar_priority (doc : Doc) (html : Chars)
    (h1 : ∃ e ∈ doc, avatarHintedCS e = true ∧ jsTrim (attrOr e.src) ≠ [])
    (h2 : ∀ e ∈ doc, avatarHintedCS e = true → e.src.isSome = true →
      jsTrim (attrOr e.src) ≠ []) :
    firstAttr doc (fun e => e.src) avatarSrcSels ≠ [] ∧
    findAvatar doc html =
      absUrl (firstAttr doc (fun e => e.src) avatarSrcSels) ∧
    ∃ e ∈ doc, avatarHintedCS e = true ∧
      findAvatar doc html = absUrl (jsTrim (attrOr e.src)) := by
  have hA : firstAttr doc (fun e => e.src) avatarSrcSels ≠ [] := by
    refine firstAttr_ne_of ?_ ?_
    · intro sel hs e he hse
      obtain ⟨hhint, hsome⟩ := avatarSrcSels_sound hs hse
      exact h2 e he hhint hsome
    · obtain ⟨e, he, hhint, hne⟩ := h1
      have hsome : e.src.isSome = true := by
        cases hsrc : e.src with
        | none => exact absurd (show jsTrim (attrOr e.src) = [] by
            rw [hsrc]; rfl) hne
        | some v => rfl
      rcases hint_to_sel hhint hsome with hs | hs | hs | hs
      · exact ⟨selAv1, by simp [avatarSrcSels], e, he, hs⟩
      · exact ⟨selAv2, by simp [avatarSrcSels], e, he, hs⟩
      · exact ⟨selAv3, by simp [avatarSrcSels], e, he, hs⟩
      · exact ⟨selAv4, by simp [avatarSrcSels], e, he, hs⟩
  have hfa : findAvatar doc html =
      absUrl (firstAttr doc (fun e => e.src) avatarSrcSels) := by
    rw [findAvatar_eq, if_pos hA]
  refine ⟨hA, hfa, ?_⟩
  obtain ⟨sel, hs, e, he, hse, heq⟩ := firstAttr_spec hA
  exact ⟨e, he, (avatarSrcSels_sound hs hse).1, by rw [hfa, heq]⟩

/-- C4 witness: an avatar-classed image with a usable src beats a CDN
image on a concrete document. -/
theorem C4_witness :
    findAvatar c4DocW (chs "") =
      absUrl (firstAttr c4DocW (fun e => e.src) avatarSrcSels) :=
  (C4_avatar_priority c4DocW (chs "") (by decide) (by decide)).2.1

theorem find?_congr {α : Type} : ∀ {l : List α} {p q : α → Bool},
    (∀ a ∈ l, p a = q a) → l.find? p = l.find? q
  | [], _, _, _ => rfl
  | a :: t, p, q, h => by
    by_cases hq : q a = true
    · rw [List.find?_cons_of_pos t (by rw [h a (List.mem_cons_self a t)]; exact hq),
        List.find?_cons_of_pos t hq]
    · rw [List.find?_cons_of_neg t (by rw [h a (List.mem_cons_self a t)]; exact hq),
        List.find?_cons_of_neg t hq]
      exact find?_congr fun x hx => h x (List.mem_cons_of_mem a hx)

theorem findTopic_find? (doc : Doc) : findTopic doc =
    (match doc.find?
        (fun e => topicSel e && topicKeep (jsTrim (attrOr e.href))) with
     | some e => (jsTrim e.text, absUrl (attrOr e.href))
     | none => ([], [])) := by
  unfold findTopic
  rw [List.filter_head?, List.find?_filter]
  rw [find?_congr (q := fun e => topicSel e && topicKeep (jsTrim (attrOr e.href)))
    (fun e _ => by
      cases h1 : topicSel e <;>
        cases h2 : topicKeep (jsTrim (attrOr e.href)) <;> simp [h1, h2])]
  cases doc.find? (fun e => topicSel e && topicKeep (jsTrim (attrOr e.href))) <;>
    rfl

theorem amendedSegStartsDigit_eq (h : Chars) :
    amendedSegStartsDigit h =
      (match h.drop (chs "/discussion/").length with
       | c :: _ => c.isDigit
       | [] => false) := by
  unfold amendedSegStartsDigit
  cases hd : h.drop (chs "/discussion/").length with
  | nil => rfl
  | cons c t =>
    by_cases hc : c = '/'
    · subst hc
      rw [List.takeWhile_cons, if_neg (by decide)]
      rfl
    · rw [List.takeWhile_cons, if_pos (by simp [hc])]

theorem topicAccept_pointwise (e : Elem) :
    (topicSel e && topicKeep (jsTrim (attrOr e.href))) = amendedTopicAccept e := by
  unfold topicSel amendedTopicAccept
  cases hhref : e.href with
  | none => simp [attrStarts]
  | some raw =>
    by_cases htag : e.tag = chs "a"
    case neg => simp [htag]
    case pos =>
      by_cases hpfx : pfx (chs "/discussion/") raw = true
      case neg =>
        simp [htag, attrStarts, hpfx]
      case pos =>
        have htrim : pfx (chs "/discussion/") (jsTrim raw) = true :=
          pfx_jsTrim hpfx (by decide) (by decide)
        have hne : jsTrim raw ≠ [] := ne_nil_of_pfx (by decide) htrim
        unfold topicKeep permalinkTest
        rw [amendedSegStartsDigit_eq]
        simp only [attrStarts, attrOr, Option.getD_some, htag, htrim, hne,
          decide_True, Bool.true_and, hpfx, Bool.and_true, decide_eq_true_eq]
        rw [Bool.eq_iff_iff]
        simp only [Bool.and_eq_true, Bool.not_eq_true', decide_eq_false_iff_not,
          decide_eq_true_eq, decide_True]
        tauto

/-- C2 counterexample: the reference `/discussion/54829abc` survives the
claim's rejection rules — its next segment `54829abc` is not purely
numeric — and carries non-blank text, yet the resolver's unanchored
regex `/^\/discussion\/\d+\/?/` rejects it, producing empty fields where
the claim demands topic `X`. -/
theorem C2_counterexample :
    specTopicSurvives (chs "/discussion/54829abc") = true ∧
    jsTrim (chs "X") ≠ [] ∧
    findTopic c2Doc = ([], []) := by
  refine ⟨by decide, by decide, by decide⟩

/-- C2 (amended): the Topic Resolver scans all links whose raw reference
begins with `/discussion/`, rejecting a candidate exactly when its
trimmed reference (a) begins with the profile prefix, (b) equals the bare
root with or without trailing slash, or (c) has a next path segment that
*begins with a digit* (the unanchored permalink regex requires no more
than one digit); the first surviving link in document order supplies the
trimmed text and the normalized reference, else both fields are empty. -/
theorem C2_topic_resolver (doc : Doc) : findTopic doc = amendedTopicResult doc := by
  rw [findTopic_find?]
  unfold amendedTopicResult
  rw [find?_congr (fun e _ => topicAccept_pointwise e)]

theorem pfx_weaken {p q s : Chars} (h : pfx (p ++ q) s = true) :
    pfx p s = true := by
  obtain ⟨t, rfl⟩ := (pfx_iff _ _).1 h
  rw [List.append_assoc]
  exact pfx_append_self _ _

theorem absUrl_discussion {raw : Chars}
    (h : pfx (chs "/discussion/") raw = true) : isAbsCI (absUrl raw) = true := by
  apply absUrl_goodRef
  · obtain ⟨t, rfl⟩ := (pfx_iff _ _).1 h
    unfold goodRef
    rw [show pfx (chs "/") (chs "/discussion/" ++ t) = true from rfl]
    simp
  · exact ne_nil_of_pfx (by decide) (pfx_jsTrim h (by decide) (by decide))

theorem parseFirst_no_ws (s : Chars) :
    ∀ c ∈ parseFirstUrlFromSrcset s, wsC c = false := by
  unfold parseFirstUrlFromSrcset
  by_cases h : s = []
  · rw [if_pos h]
    intro c hc
    cases hc
  · rw [if_neg h]
    intro c hc
    have := List.mem_takeWhile_imp hc
    simpa using this

/-- C8 counterexample: an avatar-classed image whose src is the opaque
relative form `foo.png` passes through the URL Normalizer unchanged, so
the record's avatar field is non-empty but not an absolute URL. -/
theorem C8_counterexample :
    (extract c8Doc (chs "") (chs "u")).avatar = chs "foo.png" ∧
    (extract c8Doc (chs "") (chs "u")).avatar ≠ [] ∧
    isAbsCI ((extract c8Doc (chs "") (chs "u")).avatar) = false := by
  refine ⟨by decide, by decide, by decide⟩

/-- C8 (amended): `topicUrl` is an absolute URL whenever non-empty,
unconditionally; `avatarUrl` is absolute whenever non-empty provided
every image's src (and first srcset URL) is empty, root-relative,
protocol-relative or already http(s)-absolute — an opaque relative form
such as `foo.png` is passed through unchanged and breaks the claim. -/
theorem C8_urls_absolute (doc : Doc) (html url : Chars) :
    ((extract doc html url).topicUrl = [] ∨
      isAbsCI ((extract doc html url).topicUrl) = true) ∧
    ((∀ e ∈ doc, e.tag = chs "img" →
        goodRef (jsTrim (attrOr e.src)) = true ∧
        goodRef (parseFirstUrlFromSrcset (jsTrim (attrOr e.srcset))) = true) →
      ((extract doc html url).avatar = [] ∨
        isAbsCI ((extract doc html url).avatar) = true)) := by
  constructor
  · show (findTopic doc).2 = [] ∨ isAbsCI (findTopic doc).2 = true
    rw [findTopic_find?]
    cases hfind : doc.find?
        (fun e => topicSel e && topicKeep (jsTrim (attrOr e.href))) with
    | none => exact Or.inl rfl
    | some e =>
      right
      have hsel := List.find?_some hfind
      simp only [Bool.and_eq_true] at hsel
      have htopic : topicSel e = true := hsel.1
      unfold topicSel at htopic
      simp only [Bool.and_eq_true, decide_eq_true_eq] at htopic
      cases hhref : e.href with
      | none =>
        rw [hhref] at htopic
        exact absurd htopic.2 (by simp [attrStarts])
      | some raw =>
        rw [hhref] at htopic
        have hpfx : pfx (chs "/discussion/") raw = true := htopic.2
        show isAbsCI (absUrl (attrOr e.href)) = true
        rw [hhref]
        exact absUrl_discussion hpfx
  · intro h
    show findAvatar doc html = [] ∨ isAbsCI (findAvatar doc html) = true
    rw [findAvatar_eq]
    by_cases h1 : firstAttr doc (fun e => e.src) avatarSrcSels ≠ []
    · rw [if_pos h1]
      right
      obtain ⟨sel, hs, e, he, hse, heq⟩ := firstAttr_spec h1
      have htag := avatarSrcSels_tag hs hse
      rw [heq]
      apply absUrl_goodRef (h e he htag).1
      rw [jsTrim_idem, ← heq]
      exact h1
    · rw [if_neg h1]
      by_cases h2 : firstAttr doc (fun e => e.src) [selAvCdn] ≠ []
      · rw [if_pos h2]
        right
        obtain ⟨sel, hs, e, he, hse, heq⟩ := firstAttr_spec h2
        have htag : e.tag = chs "img" := by
          simp only [List.mem_cons, List.not_mem_nil, or_false] at hs
          subst hs
          simp only [selAvCdn, Bool.and_eq_true, decide_eq_true_eq] at hse
          exact hse.1
        rw [heq]
        apply absUrl_goodRef (h e he htag).1
        rw [jsTrim_idem, ← heq]
        exact h2
      · rw [if_neg h2]
        by_cases h3 : parseFirstUrlFromSrcset
            (firstAttr doc (fun e => e.srcset) avatarSetSels) ≠ []
        · rw [if_pos h3]
          right
          have hss : firstAttr doc (fun e => e.srcset) avatarSetSels ≠ [] := by
            intro hc
            rw [hc] at h3
            exact h3 rfl
          obtain ⟨sel, hs, e, he, hse, heq⟩ := firstAttr_spec hss
          have htag := avatarSetSels_tag hs hse
          rw [heq] at h3 ⊢
          apply absUrl_goodRef (h e he htag).2
          rw [jsTrim_of_forall (parseFirst_no_ws _)]
          exact h3
        · rw [if_neg h3]
          cases hik : ikScan html with
          | none => exact Or.inl rfl
          | some m =>
            right
            obtain ⟨pre, s2, hs2, ht⟩ := ikScan_spec _ _ hik
            show isAbsCI m = true
            unfold isAbsCI
            rcases (tryIk_spec ht).2 with hp | hp
            · rw [pfx_weaken (p := chs "http://") (q := chs "ik.imagekit.io/")
                (show pfx (chs "http://" ++ chs "ik.imagekit.io/")
                    (m.map Char.toLower) = true from hp)]
              simp
            · rw [pfx_weaken (p := chs "https://") (q := chs "ik.imagekit.io/")
                (show pfx (chs "https://" ++ chs "ik.imagekit.io/")
                    (m.map Char.toLower) = true from hp)]
              simp

/-- C8 witness: on the end-to-end document (whose image references are
root-relative) both URL fields are empty-or-absolute. -/
theorem C8_witness :
    (extract doc9 (chs "") (chs "u")).avatar = [] ∨
      isAbsCI ((extract doc9 (chs "") (chs "u")).avatar) = true :=
  (C8_urls_absolute doc9 (chs "") (chs "u")).2 (by decide)

theorem splitOnC_ne_nil (sep : Char) : ∀ (s : Chars), splitOnC sep s ≠ []
  | [] => by simp [splitOnC]
  | c :: rest => by
    unfold splitOnC
    by_cases hc : c = sep
    · simp [hc]
    · rw [if_neg hc]
      cases h : splitOnC sep rest <;> simp

theorem splitOnC_not_mem (sep : Char) : ∀ (s : Chars), ∀ p ∈ splitOnC sep s,
    sep ∉ p
  | [] => by
    intro p hp
    simp only [splitOnC, List.mem_singleton] at hp
    subst hp
    simp
  | c :: rest => by
    intro p hp
    unfold splitOnC at hp
    by_cases hc : c = sep
    · rw [if_pos hc] at hp
      rcases List.mem_cons.1 hp with rfl | hp2
      · simp
      · exact splitOnC_not_mem sep rest p hp2
    · rw [if_neg hc] at hp
      cases h : splitOnC sep rest with
      | nil => exact absurd h (splitOnC_ne_nil sep rest)
      | cons q t =>
        rw [h] at hp
        rcases List.mem_cons.1 hp with rfl | hp2
        · intro hmem
          rcases List.mem_cons.1 hmem with hq | hmem2
          · exact hc hq.symm
          · exact splitOnC_not_mem sep rest q
              (by rw [h]; exact List.mem_cons_self q t) hmem2
        · exact splitOnC_not_mem sep rest p
            (by rw [h]; exact List.mem_cons_of_mem q hp2)

theorem splitOnC_single {sep : Char} : ∀ {p : Chars}, sep ∉ p →
    splitOnC sep p = [p]
  | [], _ => rfl
  | c :: rest, h => by
    unfold splitOnC
    rw [if_neg (by
      intro hc
      exact h (by rw [hc]; exact List.mem_cons_self _ _))]
    rw [splitOnC_single (fun hm => h (List.mem_cons_of_mem c hm))]

theorem splitOnC_join_cons {sep : Char} : ∀ {p : Chars} (q : Chars), sep ∉ p →
    splitOnC sep (p ++ sep :: q) = p :: splitOnC sep q
  | [], q, _ => by simp [splitOnC]
  | c :: rest, q, h => by
    show splitOnC sep (c :: (rest ++ sep :: q)) = (c :: rest) :: splitOnC sep q
    conv_lhs => unfold splitOnC
    rw [if_neg (by
      intro hc
      exact h (by rw [hc]; exact List.mem_cons_self _ _))]
    rw [splitOnC_join_cons q (fun hm => h (List.mem_cons_of_mem c hm))]

theorem joinC_split (sep : Char) : ∀ (parts : List Chars), parts ≠ [] →
    (∀ p ∈ parts, sep ∉ p) → splitOnC sep (joinC sep parts) = parts
  | [], h, _ => absurd rfl h
  | [p], _, hp => by
    show splitOnC sep p = [p]
    exact splitOnC_single (hp p (List.mem_cons_self _ _))
  | p :: p2 :: rest, _, hp => by
    show splitOnC sep (p ++ sep :: joinC sep (p2 :: rest)) = p :: (p2 :: rest)
    rw [splitOnC_join_cons _ (hp p (List.mem_cons_self _ _))]
    rw [joinC_split sep (p2 :: rest) (by simp)
      (fun x hx => hp x (List.mem_cons_of_mem p hx))]

theorem upscale_eq (u : Chars) : upscale u =
    (if !(pfx (chs "http://") u || pfx (chs "https://") u) then u else
     if !(sizeHost (hostOf (baseOf u))) then u else
     baseOf u ++ '?' :: joinC '&'
       (((splitOnC '&' (u.drop ((baseOf u).length + 1))).filter
         (fun p => !(p = []) && !(queryKey p = chs "s"))) ++ [chs "s=192"])) := rfl

theorem mem_baseOf_ne (v : Chars) : ∀ c ∈ baseOf v, ¬(c = '?') := by
  intro c hc
  have := List.mem_takeWhile_imp hc
  simpa using this

theorem baseOf_append (base Q : Chars) (hb : ∀ c ∈ base, ¬(c = '?')) :
    baseOf (base ++ '?' :: Q) = base := by
  unfold baseOf
  rw [List.takeWhile_append_of_pos (by
    intro a ha
    simpa using hb a ha)]
  rw [List.takeWhile_cons, if_neg (by decide)]
  simp

theorem drop_after_base (base Q : Chars) :
    (base ++ '?' :: Q).drop (base.length + 1) = Q := by
  rw [show base ++ '?' :: Q = (base ++ ['?']) ++ Q by simp]
  rw [List.drop_left' (by simp)]

theorem pfx_baseOf {p u : Chars} (h : pfx p u = true)
    (hp : ∀ c ∈ p, ¬(c = '?')) : pfx p (baseOf u) = true := by
  obtain ⟨t, rfl⟩ := (pfx_iff _ _).1 h
  unfold baseOf
  rw [List.takeWhile_append_of_pos (by
    intro a ha
    simpa using hp a ha)]
  exact pfx_append_self _ _

theorem upscale_unchanged {u : Chars}
    (h : (pfx (chs "http://") u || pfx (chs "https://") u) = false ∨
      sizeHost (hostOf (baseOf u)) = false) : upscale u = u := by
  rcases h with h | h
  · rw [upscale_eq, if_pos (by simp [h])]
  · by_cases hsch : (pfx (chs "http://") u || pfx (chs "https://") u) = true
    · rw [upscale_eq, if_neg (by simp [hsch]), if_pos (by simp [h])]
    · have hsch2 : (pfx (chs "http://") u || pfx (chs "https://") u) = false := by
        simp only [Bool.not_eq_true] at hsch
        exact hsch
      rw [upscale_eq, if_pos (by simp [hsch2])]

theorem upscale_branch {u : Chars}
    (h1 : (pfx (chs "http://") u || pfx (chs "https://") u) = true)
    (h2 : sizeHost (hostOf (baseOf u)) = true) :
    upscale u = baseOf u ++ '?' :: joinC '&'
      (((splitOnC '&' (u.drop ((baseOf u).length + 1))).filter
        (fun p => !(p = []) && !(queryKey p = chs "s"))) ++ [chs "s=192"]) := by
  rw [upscale_eq, if_neg (by simp [h1]), if_neg (by simp [h2])]

theorem queryParams_upscaled {u : Chars}
    (h1 : (pfx (chs "http://") u || pfx (chs "https://") u) = true)
    (h2 : sizeHost (hostOf (baseOf u)) = true) :
    queryParams (upscale u) =
      ((splitOnC '&' (u.drop ((baseOf u).length + 1))).filter
        (fun p => !(p = []) && !(queryKey p = chs "s"))) ++ [chs "s=192"] := by
  rw [upscale_branch h1 h2]
  unfold queryParams
  rw [baseOf_append _ _ (mem_baseOf_ne u), drop_after_base]
  refine joinC_split '&' _ (by simp) ?_
  intro p hp
  rcases List.mem_append.1 hp with hp | hp
  · exact splitOnC_not_mem '&' _ p (List.mem_of_mem_filter hp)
  · simp only [List.mem_singleton] at hp
    subst hp
    decide

/-- C7 (spec-modelled): the Avatar Post-Processor leaves a URL unchanged
when it has no http(s) scheme (syntactically invalid) or when its host is
not the size-parameterized image service; on that service's URLs it
overwrites the size parameter `s` with the fixed larger value `192` (the
last query parameter is `s=192` and no other `s` parameter survives,
regardless of any prior size); and it is idempotent. -/
theorem C7_upscale :
    (∀ u : Chars,
      (pfx (chs "http://") u = false ∧ pfx (chs "https://") u = false) ∨
        sizeHost (hostOf (baseOf u)) = false → upscale u = u) ∧
    (∀ u : Chars, (pfx (chs "http://") u || pfx (chs "https://") u) = true →
      sizeHost (hostOf (baseOf u)) = true →
      (queryParams (upscale u)).getLast? = some (chs "s=192") ∧
      ∀ p ∈ queryParams (upscale u), queryKey p = chs "s" → p = chs "s=192") ∧
    (∀ u : Chars, upscale (upscale u) = upscale u) := by
  refine ⟨?_, ?_, ?_⟩
  · intro u h
    rcases h with ⟨ha, hb⟩ | h
    · exact upscale_unchanged (Or.inl (by simp [ha, hb]))
    · exact upscale_unchanged (Or.inr h)
  · intro u h1 h2
    rw [queryParams_upscaled h1 h2]
    constructor
    · exact List.getLast?_concat _
    · intro p hp hkey
      rcases List.mem_append.1 hp with hp | hp
      · have hf := List.of_mem_filter hp
        simp only [Bool.and_eq_true, Bool.not_eq_true',
          decide_eq_false_iff_not] at hf
        exact absurd hkey hf.2
      · simpa using hp
  · intro u
    cases hsch : (pfx (chs "http://") u || pfx (chs "https://") u) with
    | false => rw [upscale_unchanged (Or.inl hsch), upscale_unchanged (Or.inl hsch)]
    | true =>
      cases hhost : sizeHost (hostOf (baseOf u)) with
      | false =>
        rw [upscale_unchanged (Or.inr hhost), upscale_unchanged (Or.inr hhost)]
      | true =>
        have hv := upscale_branch hsch hhost
        have hsch2 : (pfx (chs "http://") (upscale u) ||
            pfx (chs "https://") (upscale u)) = true := by
          have hor := hsch
          rw [Bool.or_eq_true] at hor
          rcases hor with h | h
          · have : pfx (chs "http://") (upscale u) = true := by
              rw [hv]
              exact pfx_append_right _ (pfx_baseOf h (by decide))
            simp [this]
          · have : pfx (chs "https://") (upscale u) = true := by
              rw [hv]
              exact pfx_append_right _ (pfx_baseOf h (by decide))
            simp [this]
        have hbase2 : baseOf (upscale u) = baseOf u := by
          rw [hv]
          exact baseOf_append _ _ (mem_baseOf_ne u)
        have hhost2 : sizeHost (hostOf (baseOf (upscale u))) = true := by
          rw [hbase2]
          exact hhost
        have hdrop2 : (upscale u).drop ((baseOf (upscale u)).length + 1) =
            joinC '&'
              (((splitOnC '&' (u.drop ((baseOf u).length + 1))).filter
                (fun p => !(p = []) && !(queryKey p = chs "s"))) ++
                [chs "s=192"]) := by
          rw [hbase2, hv, drop_after_base]
        have hsplit2 : splitOnC '&'
            ((upscale u).drop ((baseOf (upscale u)).length + 1)) =
            ((splitOnC '&' (u.drop ((baseOf u).length + 1))).filter
              (fun p => !(p = []) && !(queryKey p = chs "s"))) ++
              [chs "s=192"] := by
          rw [hdrop2]
          refine joinC_split '&' _ (by simp) ?_
          intro p hp
          rcases List.mem_append.1 hp with hp | hp
          · exact splitOnC_not_mem '&' _ p (List.mem_of_mem_filter hp)
          · simp only [List.mem_singleton] at hp
            subst hp
            decide
        have hfilt2 : (((splitOnC '&' (u.drop ((baseOf u).length + 1))).filter
              (fun p => !(p = []) && !(queryKey p = chs "s"))) ++
              [chs "s=192"]).filter
              (fun p => !(p = []) && !(queryKey p = chs "s")) =
            ((splitOnC '&' (u.drop ((baseOf u).length + 1))).filter
              (fun p => !(p = []) && !(queryKey p = chs "s"))) := by
          rw [List.filter_append]
          rw [List.filter_eq_self.2 (fun q hq => (List.mem_filter.1 hq).2)]
          rw [show ([chs "s=192"]).filter
              (fun p => !(p = []) && !(queryKey p = chs "s")) = [] from by decide]
          simp
        rw [upscale_branch hsch2 hhost2, hsplit2, hfilt2, hbase2, ← hv]

/-- C7 witness: a gravatar URL with a prior size parameter. -/
theorem C7_witness :
    (queryParams (upscale
        (chs "https://www.gravatar.com/avatar/abc?s=50&d=mp"))).getLast? =
      some (chs "s=192") ∧
    ∀ p ∈ queryParams (upscale
        (chs "https://www.gravatar.com/avatar/abc?s=50&d=mp")),
      queryKey p = chs "s" → p = chs "s=192" :=
  C7_upscale.2.1 (chs "https://www.gravatar.com/avatar/abc?s=50&d=mp")
    (by decide) (by decide)

example : absUrl (chs "/x") = chs "https://7sage.com/x" := by decide
example : absUrl (chs "//cdn.example/y") = chs "https://cdn.example/y" := by decide
example : absUrl (chs "https://a/b") = chs "https://a/b" := by decide
example : absUrl (chs "  ") = chs "" := by decide
example : absUrl (chs " foo ") = chs "foo" := by decide
example : collapseWsTrim (chs "3\n  days   ago") = chs "3 days ago" := by decide
